import Mathlib

/-!
Verification of the Companion wire-stack core of this repository against its
natural-language specification.  Byte buffers are modelled as `List Nat`
(each element a byte value `< 256`); JavaScript `Buffer` reads and writes of
little-endian integers are modelled with explicit `% 256` arithmetic.
The shallow embedding below translates, function by function:
  * the TLV8 codec (`readTlv` / `writeTlv`),
  * the ChaCha20-Poly1305 cipher wrapper (`Chacha20Cipher`) with its
    counter-based nonces (the AEAD primitive itself is an external library
    and is kept as an abstract function parameter),
  * the framed Companion transport (`CompanionConnection.send`),
  * the dispatch layer (`CompanionProtocol`: pending-request and
    pending-auth tables, transaction ids, connection loss),
  * the OPACK codec (`pack` / `unpack`) with back-reference pooling.
-/

namespace AtvJs

/-! ## Little-endian byte helpers

`leWrite k n` is the `k`-byte little-endian encoding of `n` (the JS side uses
`Buffer.writeUInt16LE` / `writeUInt32LE` / `writeUIntLE` / `writeBigUInt64LE`,
which fault when the value does not fit; all call sites below guard the range,
so the `% 256` truncation of the model is only exercised in-range).
`leRead` models `readUIntLE` / `readUInt16LE` / `readUInt32LE` /
`readBigUInt64LE`: it reads `k` bytes little-endian from the front. -/

def leWrite : Nat → Nat → List Nat
  | 0, _ => []
  | k + 1, n => n % 256 :: leWrite k (n / 256)

def leRead : Nat → List Nat → Nat
  | 0, _ => 0
  | _ + 1, [] => 0
  | k + 1, b :: rest => b + 256 * leRead k rest

theorem leWrite_length (k n : Nat) : (leWrite k n).length = k := by
  induction k generalizing n with
  | zero => rfl
  | succ k ih => simp [leWrite, ih]

theorem leRead_append (k : Nat) (bs rest : List Nat) (h : bs.length = k) :
    leRead k (bs ++ rest) = leRead k bs := by
  induction k generalizing bs with
  | zero => simp [leRead]
  | succ k ih =>
    match bs with
    | [] => simp at h
    | b :: bs =>
      simp only [List.cons_append, leRead]
      rw [show bs.append rest = bs ++ rest from rfl, ih bs (by simpa using h)]

theorem leRead_leWrite (k n : Nat) (h : n < 256 ^ k) : leRead k (leWrite k n) = n := by
  induction k generalizing n with
  | zero =>
    have h0 : n = 0 := Nat.lt_one_iff.mp (by simpa using h)
    simp [leRead, leWrite, h0]
  | succ k ih =>
    simp only [leWrite, leRead]
    rw [ih (n / 256) (by
      have : n < 256 * 256 ^ k := by
        simpa [Nat.pow_succ, Nat.mul_comm] using h
      exact Nat.div_lt_of_lt_mul (by simpa [Nat.mul_comm] using this))]
    exact Nat.mod_add_div n 256

/-! ## TLV8 codec

Translated from `readTlv` / `writeTlv` (hap_tlv8 port).  The reader scans
`(tag, length, value)` triples; JS `Buffer.subarray` clamps out-of-range
bounds, so a declared length larger than the remaining bytes simply yields
the remaining bytes, and on a one-byte tail the missing length byte behaves
as an empty value (in JS `data[pos+1]` is `undefined` and the `NaN`
arithmetic terminates the loop after adding an empty record).  Duplicate
tags are concatenated in first-occurrence order.  The result is an ordered
association list standing for the insertion-ordered JS `Map`. -/

def TlvData := List (Nat × List Nat)

/-- `result.set(tag, ...)` on the JS `Map`: concatenate onto an existing
entry in place, otherwise append a fresh entry. -/
def tlvInsert (m : List (Nat × List Nat)) (tag : Nat) (value : List Nat) :
    List (Nat × List Nat) :=
  match m with
  | [] => [(tag, value)]
  | (t, v) :: rest =>
    if t = tag then (t, v ++ value) :: rest else (t, v) :: tlvInsert rest tag value

/-- The `while (pos < data.length)` scan.  The first argument is fuel, a
termination device only: every iteration consumes at least two bytes, so
the `data.length` supplied by `readTlv` below is never exhausted before
the input is. -/
def readTlvGo : Nat → List Nat → List (Nat × List Nat) → List (Nat × List Nat)
  | 0, _, acc => acc
  | _ + 1, [], acc => acc
  | _ + 1, [tag], acc => tlvInsert acc tag []
  | fuel + 1, tag :: len :: rest, acc =>
    readTlvGo fuel (rest.drop len) (tlvInsert acc tag (rest.take len))

def readTlv (data : List Nat) : List (Nat × List Nat) :=
  readTlvGo data.length data []

/-- One entry of `writeTlv`: emit records of at most 255 bytes, all with the
same (byte-truncated) tag.  The JS loop condition `pos < value.length ||
remaining === 0` makes a zero-length value emit a single `(tag, 0)` record.
Fuel-structured (each iteration consumes 255 bytes, so the
`value.length + 1` supplied below always suffices). -/
def writeTlvGo : Nat → Nat → List Nat → List Nat
  | 0, _, _ => []
  | _ + 1, tag, [] => [tag % 256, 0]
  | fuel + 1, tag, v =>
    if v.length ≤ 255 then
      -- size = min(remaining, 255) = v.length; the loop then breaks
      tag % 256 :: v.length :: v
    else
      tag % 256 :: 255 :: (v.take 255 ++ writeTlvGo fuel tag (v.drop 255))

def writeTlvEntry (tag : Nat) (value : List Nat) : List Nat :=
  writeTlvGo (value.length + 1) tag value

def writeTlv (entries : List (Nat × List Nat)) : List Nat :=
  entries.flatMap (fun e => writeTlvEntry e.1 e.2)

/-! ## ChaCha20-Poly1305 cipher wrapper

Translated from `Chacha20Cipher` (chacha20 module).  The AEAD primitive
(`chacha20poly1305(key, nonce, aad).encrypt / .decrypt` from the external
`@noble/ciphers` library) is kept abstract: every operation takes an
arbitrary function `aead : key → nonce → aad? → data → bytes`.  The mutable
class fields become an explicit state record threaded through the calls. -/

/-- Abstract AEAD primitive: key, nonce, optional AAD, data. -/
def AeadFn := List Nat → List Nat → Option (List Nat) → List Nat → List Nat

structure Chacha20State where
  outKey : List Nat
  inKey : List Nat
  outCounter : Nat
  inCounter : Nat
  nonceLength : Nat
deriving DecidableEq, Repr

namespace Chacha20State

/-- `writeLECounter(buf, counter, length)` into a zero-filled buffer of
`length` bytes: byte `i` holds bits `8i..8i+7` of the counter for `i < 8`,
later bytes stay zero. -/
def leCounterBuf (length counter : Nat) : List Nat :=
  (List.range length).map (fun i => if i < 8 then counter / 256 ^ i % 256 else 0)

/-- `padNonce`: a nonce shorter than 12 bytes is copied to the end of a
zero-filled 12-byte buffer (zero padding on the high/front side). -/
def padNonce (nonce : List Nat) : List Nat :=
  if 12 ≤ nonce.length then nonce else List.replicate (12 - nonce.length) 0 ++ nonce

def getOutNonce (st : Chacha20State) : List Nat :=
  let nonce := leCounterBuf st.nonceLength st.outCounter
  if st.nonceLength ≠ 12 then padNonce nonce else nonce

def getInNonce (st : Chacha20State) : List Nat :=
  let nonce := leCounterBuf st.nonceLength st.inCounter
  if st.nonceLength ≠ 12 then padNonce nonce else nonce

/-- `encrypt(data, nonce?, aad?)`: with the nonce omitted the out-counter
nonce is used and `outCounter` is incremented; an explicit nonce is padded
when shorter than 12 bytes and the state is untouched. -/
def encrypt (aead : AeadFn) (st : Chacha20State) (data : List Nat)
    (nonce : Option (List Nat)) (aad : Option (List Nat)) :
    List Nat × Chacha20State :=
  match nonce with
  | none =>
    (aead st.outKey st.getOutNonce aad data,
     { st with outCounter := st.outCounter + 1 })
  | some n =>
    (aead st.outKey (if n.length < 12 then padNonce n else n) aad data, st)

/-- `decrypt(data, nonce?, aad?)`: mirror of `encrypt` on the in-key and
in-counter.  (The library call may throw on authentication failure; the
state updates here happen before that call, so they are unconditional.) -/
def decrypt (aead : AeadFn) (st : Chacha20State) (data : List Nat)
    (nonce : Option (List Nat)) (aad : Option (List Nat)) :
    List Nat × Chacha20State :=
  match nonce with
  | none =>
    (aead st.inKey st.getInNonce aad data,
     { st with inCounter := st.inCounter + 1 })
  | some n =>
    (aead st.inKey (if n.length < 12 then padNonce n else n) aad data, st)

end Chacha20State

/-! ## Framed transport: `CompanionConnection.send`

Translated from `CompanionConnection.send`.  Only the bytes passed to
`socket.write` and the cipher-state effect are modelled; `chacha` is the
optional cipher installed by `enableEncryption`.  The 4-byte header is
`[frameType, length >> 16, length >> 8, length]` (length big-endian), where
the length is the plaintext length plus 16 when encryption is active and
the payload is non-empty.  Encryption runs in counter mode (nonce omitted)
with the header as AAD. -/

def frameHeader (frameType payloadLength : Nat) : List Nat :=
  [frameType % 256, payloadLength / 65536 % 256, payloadLength / 256 % 256,
   payloadLength % 256]

def connectionSend (aead : AeadFn) (chacha : Option Chacha20State)
    (frameType : Nat) (data : List Nat) :
    List Nat × Option Chacha20State :=
  match chacha with
  | some st =>
    if data.length > 0 then
      let header := frameHeader frameType (data.length + 16)
      let r := st.encrypt aead data none (some header)
      (header ++ r.1, some r.2)
    else
      (frameHeader frameType data.length ++ data, some st)
  | none => (frameHeader frameType data.length ++ data, none)

/-! ## Dispatch layer: `CompanionProtocol`

The pending-request table (keyed by transaction id) and the pending-auth
table (keyed by the expected reply frame type) are JS `Map`s; they are
modelled as insertion-ordered association lists with the `Map` operations
below (`set` updates an existing key in place, `delete` removes it,
iteration follows insertion order; a JS `Map` never holds duplicate keys).
A pending entry's completion (`resolve` / `reject` pair plus its timer) is
identified by an abstract numeric id. -/

def mapGet {α : Type} (m : List (Nat × α)) (k : Nat) : Option α :=
  match m with
  | [] => none
  | (k0, v) :: rest => if k0 = k then some v else mapGet rest k

def mapSet {α : Type} (m : List (Nat × α)) (k : Nat) (v : α) : List (Nat × α) :=
  match m with
  | [] => [(k, v)]
  | (k0, v0) :: rest =>
    if k0 = k then (k0, v) :: rest else (k0, v0) :: mapSet rest k v

def mapDelete {α : Type} (m : List (Nat × α)) (k : Nat) : List (Nat × α) :=
  match m with
  | [] => []
  | (k0, v0) :: rest => if k0 = k then rest else (k0, v0) :: mapDelete rest k

structure CompanionProtocolState where
  xid : Nat
  pendingRequests : List (Nat × Nat)
  pendingAuth : List (Nat × Nat)
deriving DecidableEq, Repr

/-- A completion being resolved or rejected (observable effect on a pending
entry; each pending entry must see exactly one such action). -/
inductive CompletionAction where
  | resolve (id : Nat)
  | reject (id : Nat)
deriving DecidableEq, Repr

/-- `CompanionProtocol.connectionLost`: reject every pending request (in
table order), clear the table, then the same for pending auth entries. -/
def connectionLost (st : CompanionProtocolState) :
    List CompletionAction × CompanionProtocolState :=
  (st.pendingRequests.map (fun p => CompletionAction.reject p.2) ++
     st.pendingAuth.map (fun p => CompletionAction.reject p.2),
   { st with pendingRequests := [], pendingAuth := [] })

/-- The OPACK message composed by the dispatch layer:
`\x7b _i, _t, _c, _x \x7d`.  `_x` is absent until `exchangeOpack` assigns
it.  The content is kept abstract. -/
structure OpackMessage (α : Type) where
  ident : List Nat
  msgType : Nat
  content : α
  x : Option Nat
deriving DecidableEq, Repr

/-- `exchangeOpack`: `const xid = this.xid++` (no reduction), `data._x =
xid`, register the pending entry under `xid`, send.  Returns the message as
sent and the successor state. -/
def exchangeOpack {α : Type} (st : CompanionProtocolState)
    (data : OpackMessage α) (completion : Nat) :
    OpackMessage α × CompanionProtocolState :=
  let xid := st.xid
  ({ data with x := some xid },
   { st with
       xid := st.xid + 1,
       pendingRequests := mapSet st.pendingRequests xid completion })

/-- `sendCommand`: compose `\x7b _i, _t = Request(2), _c \x7d` and delegate
to `exchangeOpack` on frame type `E_OPACK`. -/
def sendCommand {α : Type} (st : CompanionProtocolState)
    (identifier : List Nat) (content : α) (completion : Nat) :
    OpackMessage α × CompanionProtocolState :=
  exchangeOpack st
    { ident := identifier, msgType := 2, content := content, x := none }
    completion

/-- `exchangeAuth`'s reply-type mapping: `PS_Start(3) → PS_Next(4)`,
`PV_Start(5) → PV_Next(6)`, anything else replies with itself. -/
def responseTypeFor (frameType : Nat) : Nat :=
  if frameType = 3 then 4 else if frameType = 5 then 6 else frameType

/-- `exchangeAuth`'s effect on the pending-auth table: register the
completion under the expected reply type (a plain `Map.set`, overwriting
any entry already stored under that key). -/
def exchangeAuthRegister (tbl : List (Nat × Nat)) (frameType completion : Nat) :
    List (Nat × Nat) :=
  mapSet tbl (responseTypeFor frameType) completion

/-! Events that can touch the pending-auth table after a registration, and
their effect, read off the source:
  * an incoming auth frame of type `ft` (`handleAuthFrame`): if the table
    holds an entry under `ft`, clear its timer, delete it, resolve it;
    otherwise nothing;
  * the timer of the exchange registered as `id` under key `ft` firing
    (`setTimeout` callback inside `exchangeAuth`): delete key `ft` —
    whatever entry is stored there now — and reject `id`;
  * a further `exchangeAuth` registering `id` under reply type `ft`
    (`Map.set`, overwriting);
  * connection loss: reject every entry and clear the table. -/
inductive AuthEvent where
  | frame (ft : Nat)
  | timerFire (id ft : Nat)
  | registerAuth (id ft : Nat)
  | connLost
deriving DecidableEq, Repr

def authStep (tbl : List (Nat × Nat)) (e : AuthEvent) :
    List (Nat × Nat) × List CompletionAction :=
  match e with
  | .frame ft =>
    match mapGet tbl ft with
    | some id => (mapDelete tbl ft, [.resolve id])
    | none => (tbl, [])
  | .timerFire id ft => (mapDelete tbl ft, [.reject id])
  | .registerAuth id ft => (mapSet tbl ft id, [])
  | .connLost => ([], tbl.map (fun p => .reject p.2))

def runAuth (tbl : List (Nat × Nat)) : List AuthEvent → List CompletionAction
  | [] => []
  | e :: evs =>
    let r := authStep tbl e
    r.2 ++ runAuth r.1 evs

/-! ## OPACK codec

Translated from `pack` / `_pack` / `packInteger` / `packString` /
`packBytes` / `findInObjectList` and `unpack` / `_unpack` / `readUIntLE`
(opack module).  `OVal` is the space of JavaScript values the codec
touches.  Notes on the embedding:
  * strings are carried as their UTF-8 bytes (`Buffer.from(s, 'utf-8')`
    and `toString('utf-8')` are mutually inverse on the valid-UTF-8 byte
    strings the encoder produces);
  * `oint` is an integer-valued JS number (`Number.isInteger` true);
    `ofloat` is a non-integral JS number or an `OpackFloat` wrapper,
    carried as the 8 little-endian bytes `writeDoubleLE` produces and
    `readDoubleLE` reads back unchanged;
  * `ofloat32` only arises from decoding tag `0x35`; re-encoding such a
    number goes through an IEEE float32-to-float64 conversion that is not
    modelled, so `packVal` maps it to junk (no theorem exercises it);
  * `oundefined` is JS `undefined`, the result of an out-of-range
    back-reference lookup (`objectList[idx]`);
  * `omap` is a JS object in its property order; `_unpack` rebuilds one
    with `output[String(k)] = v`, modelled by `objSet` and `keyOf`. -/

inductive OVal where
  | onull
  | oundefined
  | obool (b : Bool)
  | oint (n : Nat)
  | ofloat (bs : List Nat)
  | ofloat32 (bs : List Nat)
  | ostr (s : List Nat)
  | obytes (bs : List Nat)
  | oarr (xs : List OVal)
  | omap (kvs : List (List Nat × OVal))

/-! Structural (value) equality on `OVal`, decidable by the mutual
boolean comparison below (the automatic derivation does not handle the
nested `List` occurrences). -/

mutual

def OVal.beq : OVal → OVal → Bool
  | .onull, .onull => true
  | .oundefined, .oundefined => true
  | .obool x, .obool y => x == y
  | .oint x, .oint y => x == y
  | .ofloat x, .ofloat y => x == y
  | .ofloat32 x, .ofloat32 y => x == y
  | .ostr x, .ostr y => x == y
  | .obytes x, .obytes y => x == y
  | .oarr xs, .oarr ys => OVal.beqList xs ys
  | .omap xs, .omap ys => OVal.beqPairs xs ys
  | _, _ => false

def OVal.beqList : List OVal → List OVal → Bool
  | [], [] => true
  | x :: xs, y :: ys => OVal.beq x y && OVal.beqList xs ys
  | _, _ => false

def OVal.beqPairs : List (List Nat × OVal) → List (List Nat × OVal) → Bool
  | [], [] => true
  | (k1, v1) :: xs, (k2, v2) :: ys =>
    k1 == k2 && OVal.beq v1 v2 && OVal.beqPairs xs ys
  | _, _ => false

end

mutual

theorem OVal.beq_refl : ∀ a : OVal, OVal.beq a a = true
  | .onull => rfl
  | .oundefined => rfl
  | .obool x => by simp [OVal.beq]
  | .oint x => by simp [OVal.beq]
  | .ofloat x => by simp [OVal.beq]
  | .ofloat32 x => by simp [OVal.beq]
  | .ostr x => by simp [OVal.beq]
  | .obytes x => by simp [OVal.beq]
  | .oarr xs => by simpa [OVal.beq] using OVal.beqList_refl xs
  | .omap kvs => by simpa [OVal.beq] using OVal.beqPairs_refl kvs

theorem OVal.beqList_refl : ∀ xs : List OVal, OVal.beqList xs xs = true
  | [] => rfl
  | x :: xs => by simp [OVal.beqList, OVal.beq_refl x, OVal.beqList_refl xs]

theorem OVal.beqPairs_refl : ∀ kvs : List (List Nat × OVal), OVal.beqPairs kvs kvs = true
  | [] => rfl
  | (k, v) :: kvs => by simp [OVal.beqPairs, OVal.beq_refl v, OVal.beqPairs_refl kvs]

end

mutual

theorem OVal.eq_of_beq : ∀ a b : OVal, OVal.beq a b = true → a = b
  | .onull, b => by cases b <;> simp [OVal.beq]
  | .oundefined, b => by cases b <;> simp [OVal.beq]
  | .obool x, b => by cases b <;> simp [OVal.beq]
  | .oint x, b => by cases b <;> simp [OVal.beq]
  | .ofloat x, b => by cases b <;> simp [OVal.beq]
  | .ofloat32 x, b => by cases b <;> simp [OVal.beq]
  | .ostr x, b => by cases b <;> simp [OVal.beq]
  | .obytes x, b => by cases b <;> simp [OVal.beq]
  | .oarr xs, b => by
    cases b <;> simp [OVal.beq]
    intro h
    exact OVal.eqList_of_beq xs _ h
  | .omap kvs, b => by
    cases b <;> simp [OVal.beq]
    intro h
    exact OVal.eqPairs_of_beq kvs _ h

theorem OVal.eqList_of_beq : ∀ xs ys : List OVal, OVal.beqList xs ys = true → xs = ys
  | [], [] => by simp
  | [], _ :: _ => by simp [OVal.beqList]
  | _ :: _, [] => by simp [OVal.beqList]
  | x :: xs, y :: ys => by
    intro h
    simp only [OVal.beqList, Bool.and_eq_true] at h
    rw [OVal.eq_of_beq x y h.1, OVal.eqList_of_beq xs ys h.2]

theorem OVal.eqPairs_of_beq : ∀ xs ys : List (List Nat × OVal),
    OVal.beqPairs xs ys = true → xs = ys
  | [], [] => by simp
  | [], _ :: _ => by simp [OVal.beqPairs]
  | _ :: _, [] => by simp [OVal.beqPairs]
  | (k1, v1) :: xs, (k2, v2) :: ys => by
    intro h
    simp only [OVal.beqPairs, Bool.and_eq_true, beq_iff_eq] at h
    rw [h.1.1, OVal.eq_of_beq v1 v2 h.1.2, OVal.eqPairs_of_beq xs ys h.2]

end

instance : DecidableEq OVal := fun a b =>
  if h : OVal.beq a b = true then .isTrue (OVal.eq_of_beq a b h)
  else .isFalse (fun he => h (he ▸ OVal.beq_refl a))

/-- `packInteger`.  The source guards every branch with `data >= 0` (a
`Nat` is) and the final branch uses `writeBigUInt64LE`, which faults on
values `≥ 2^64`; the model truncates there instead, and every theorem
below restricts integers to `< 2^64`, where the two agree. -/
def packInteger (n : Nat) : List Nat :=
  if n < 0x28 then [n + 8]
  else if n ≤ 0xff then [0x30, n]
  else if n ≤ 0xffff then 0x31 :: leWrite 2 n
  else if n ≤ 0xffffffff then 0x32 :: leWrite 4 n
  else 0x33 :: leWrite 8 n

def packString (s : List Nat) : List Nat :=
  if s.length ≤ 0x20 then (0x40 + s.length) :: s
  else if s.length ≤ 0xff then 0x61 :: s.length :: s
  else if s.length ≤ 0xffff then 0x62 :: (leWrite 2 s.length ++ s)
  else if s.length ≤ 0xffffff then 0x63 :: (leWrite 3 s.length ++ s)
  else 0x64 :: (leWrite 4 s.length ++ s)

def packBytes (bs : List Nat) : List Nat :=
  if bs.length ≤ 0x20 then (0x70 + bs.length) :: bs
  else if bs.length ≤ 0xff then 0x91 :: bs.length :: bs
  else if bs.length ≤ 0xffff then 0x92 :: (leWrite 2 bs.length ++ bs)
  else if bs.length ≤ 0xffffffff then 0x93 :: (leWrite 4 bs.length ++ bs)
  else 0x94 :: (leWrite 8 bs.length ++ bs)

/-- `findInObjectList`: index of the first byte-equal entry. -/
def findInObjectList (list : List (List Nat)) (item : List Nat) : Option Nat :=
  match list with
  | [] => none
  | e :: rest =>
    if e = item then some 0 else (findInObjectList rest item).map (· + 1)

/-- The object-deduplication tail of `_pack`: an already-pooled encoding is
replaced by a back-reference of the smallest width that fits (an index
above `0xffff` keeps the full encoding); a new encoding longer than one
byte is appended to the pool. -/
def dedupPacked (packed : List Nat) (ol : List (List Nat)) :
    List Nat × List (List Nat) :=
  match findInObjectList ol packed with
  | some idx =>
    (if idx < 0x21 then [0xa0 + idx]
     else if idx ≤ 0xff then [0xc1, idx]
     else if idx ≤ 0xffff then 0xc2 :: leWrite 2 idx
     else packed, ol)
  | none => (packed, if 1 < packed.length then ol ++ [packed] else ol)

/-! Fuel that dominates the recursion depth of `_pack` on a value (one
unit per value, one per list node, two per map entry — see
`packVal` below, whose every recursive call decreases the fuel by one). -/

mutual

def OVal.fuelOf : OVal → Nat
  | .oarr xs => OVal.fuelOfList xs + 1
  | .omap kvs => OVal.fuelOfPairs kvs + 1
  | _ => 1

def OVal.fuelOfList : List OVal → Nat
  | [] => 1
  | x :: xs => OVal.fuelOf x + OVal.fuelOfList xs + 1

def OVal.fuelOfPairs : List (List Nat × OVal) → Nat
  | [] => 1
  | (_, v) :: kvs => OVal.fuelOf v + OVal.fuelOfPairs kvs + 2

end

mutual

/-- `_pack(data, objectList)`: the encoding of one value, threading the
pool of previously emitted encodings.  Container headers are
`0xD0/0xE0 + min(count, 15)` with a `0x03` terminator when the count is
`15` or more, and the container's own encoding is pooled only after its
children have been packed (the recursive calls mutate `objectList`
first).  The fuel is a termination device only; `pack` supplies
`OVal.fuelOf`, which dominates every call chain. -/
def packVal : Nat → OVal → List (List Nat) → List Nat × List (List Nat)
  | 0, _, ol => ([], ol)
  | _ + 1, .onull, ol => dedupPacked [0x04] ol
  | _ + 1, .oundefined, ol => dedupPacked [0x04] ol
  | _ + 1, .obool b, ol => dedupPacked [if b then 0x01 else 0x02] ol
  | _ + 1, .oint n, ol => dedupPacked (packInteger n) ol
  | _ + 1, .ofloat bs, ol => dedupPacked (0x36 :: bs) ol
  | _ + 1, .ofloat32 _, ol => ([], ol)
  | _ + 1, .ostr s, ol => dedupPacked (packString s) ol
  | _ + 1, .obytes bs, ol => dedupPacked (packBytes bs) ol
  | fuel + 1, .oarr xs, ol =>
    let r := packSeq fuel xs ol
    dedupPacked
      ((0xd0 + min xs.length 0xf) ::
        (r.1 ++ if 0xf ≤ xs.length then [0x03] else [])) r.2
  | fuel + 1, .omap kvs, ol =>
    let r := packPairs fuel kvs ol
    dedupPacked
      ((0xe0 + min kvs.length 0xf) ::
        (r.1 ++ if 0xf ≤ kvs.length then [0x03] else [])) r.2

/-- The `for (const item of data)` loop of the array branch. -/
def packSeq : Nat → List OVal → List (List Nat) → List Nat × List (List Nat)
  | 0, _, ol => ([], ol)
  | _ + 1, [], ol => ([], ol)
  | fuel + 1, x :: xs, ol =>
    let r1 := packVal fuel x ol
    let r2 := packSeq fuel xs r1.2
    (r1.1 ++ r2.1, r2.2)

/-- The `for (const [key, value] of entries)` loop of the map branch; the
key is packed through `_pack` as a string. -/
def packPairs : Nat → List (List Nat × OVal) → List (List Nat) →
    List Nat × List (List Nat)
  | 0, _, ol => ([], ol)
  | _ + 1, [], ol => ([], ol)
  | fuel + 1, (k, v) :: kvs, ol =>
    let r1 := packVal fuel (.ostr k) ol
    let r2 := packVal fuel v r1.2
    let r3 := packPairs fuel kvs r2.2
    (r1.1 ++ r2.1 ++ r3.1, r3.2)

end

def pack (v : OVal) : List Nat := (packVal v.fuelOf v []).1

/-- `String(k)` applied to a decoded map key.  Keys in encoder output are
always strings; the stringification of the other shapes is immaterial to
every theorem below (for numbers and the remaining shapes only the cases a
decoded key can take are rendered; `ofloat`, `ofloat32`, `obytes`, `oarr`
and `omap` would render through JS `toString`, which is not modelled). -/
def keyOf : OVal → List Nat
  | .ostr s => s
  | .onull => (String.data "null").map Char.toNat
  | .oundefined => (String.data "undefined").map Char.toNat
  | .obool true => (String.data "true").map Char.toNat
  | .obool false => (String.data "false").map Char.toNat
  | .oint n => (String.data (Nat.repr n)).map Char.toNat
  | _ => []

/-- `output[String(k)] = v` on the object being decoded: overwrite an
existing property in place, otherwise append. -/
def objSet (m : List (List Nat × OVal)) (k : List Nat) (v : OVal) :
    List (List Nat × OVal) :=
  match m with
  | [] => [(k, v)]
  | (k0, v0) :: rest =>
    if k0 = k then (k0, v) :: rest else (k0, v0) :: objSet rest k v

/-- `readUIntLE(buf, 1, numBytes)` on the bytes after the tag: only widths
1, 2, 4 and 8 are supported (anything else throws `Unsupported integer
size`), and Node's fixed-width reads fault when fewer bytes remain. -/
def readUIntLEOpt (bs : List Nat) (numBytes : Nat) : Option Nat :=
  if (numBytes = 1 ∨ numBytes = 2 ∨ numBytes = 4 ∨ numBytes = 8) ∧
      numBytes ≤ bs.length then
    some (leRead numBytes bs)
  else none

/-- `objectList[idx]` on the decoder side: out of range gives JS
`undefined`. -/
def olGet (ol : List OVal) (idx : Nat) : OVal := ol.getD idx .oundefined

/-- The `addToObjectList && !objectList.includes(value)` postlude for the
branches that do add.  (`includes` is value equality for primitives and
reference equality for `Buffer`s; it is modelled structurally — on encoder
output the two coincide whenever the pool stays within back-reference
range, which the round-trip theorem's hypotheses guarantee.) -/
def pushNew (v : OVal) (rest : List Nat) (ol : List OVal) :
    Option (OVal × List Nat × List OVal) :=
  some (v, rest, if v ∈ ol then ol else ol ++ [v])

mutual

/-- `_unpack(data, objectList)`.  The `fuel` argument is only a
termination device (the JS recursion terminates because every step
consumes at least one byte); `unpack` below supplies fuel that dominates
every possible call chain.  Branch conditions are written as the range
checks the JS bit masks amount to on byte values (`(b & 0xf0) === 0x30` is
`0x30 ≤ b ≤ 0x3f`, and so on); empty input models the exception thrown on
reading `data[0]` of an exhausted buffer, and the final `none` the
`Unknown OPACK type` exception. -/
def unpackVal : Nat → List Nat → List OVal → Option (OVal × List Nat × List OVal)
  | 0, _, _ => none
  | fuel + 1, data, ol =>
    match data with
    | [] => none
    | b :: rest =>
      if b = 0x01 then some (.obool true, rest, ol)
      else if b = 0x02 then some (.obool false, rest, ol)
      else if b = 0x04 then some (.onull, rest, ol)
      else if b = 0x05 then
        pushNew (.obytes (rest.take 16)) (rest.drop 16) ol
      else if b = 0x06 then
        -- readBigUInt64LE faults when fewer than 8 bytes remain
        if 8 ≤ rest.length then
          pushNew (.oint (leRead 8 rest)) (rest.drop 8) ol
        else none
      else if 0x08 ≤ b ∧ b ≤ 0x2f then some (.oint (b - 8), rest, ol)
      else if b = 0x35 then
        if 4 ≤ rest.length then
          pushNew (.ofloat32 (rest.take 4)) (rest.drop 4) ol
        else none
      else if b = 0x36 then
        if 8 ≤ rest.length then
          pushNew (.ofloat (rest.take 8)) (rest.drop 8) ol
        else none
      else if 0x30 ≤ b ∧ b ≤ 0x3f then
        -- numBytes = 1 << (b & 0xf)
        (readUIntLEOpt rest (2 ^ (b - 0x30))).bind fun value =>
          pushNew (.oint value) (rest.drop (2 ^ (b - 0x30))) ol
      else if 0x40 ≤ b ∧ b ≤ 0x60 then
        pushNew (.ostr (rest.take (b - 0x40))) (rest.drop (b - 0x40)) ol
      else if 0x60 < b ∧ b ≤ 0x64 then
        -- numBytes = b & 0xf ∈ comment 1..4 (width 3 is unsupported by readUIntLE)
        (readUIntLEOpt rest (b - 0x60)).bind fun len =>
          pushNew (.ostr ((rest.drop (b - 0x60)).take len))
            ((rest.drop (b - 0x60)).drop len) ol
      else if 0x70 ≤ b ∧ b ≤ 0x90 then
        pushNew (.obytes (rest.take (b - 0x70))) (rest.drop (b - 0x70)) ol
      else if 0x91 ≤ b ∧ b ≤ 0x94 then
        -- numBytes = 1 << ((b & 0xf) - 1)
        (readUIntLEOpt rest (2 ^ (b - 0x91))).bind fun len =>
          pushNew (.obytes ((rest.drop (2 ^ (b - 0x91))).take len))
            ((rest.drop (2 ^ (b - 0x91))).drop len) ol
      else if 0xd0 ≤ b ∧ b ≤ 0xdf then
        if b - 0xd0 = 0xf then
          (unpackSeqSentinel fuel rest ol).bind fun r =>
            some (.oarr r.1, r.2.1, r.2.2)
        else
          (unpackSeqCount fuel (b - 0xd0) rest ol).bind fun r =>
            some (.oarr r.1, r.2.1, r.2.2)
      else if 0xe0 ≤ b ∧ b ≤ 0xff then
        if b - 0xe0 = 0xf then
          (unpackPairsSentinel fuel rest ol []).bind fun r =>
            some (.omap r.1, r.2.1, r.2.2)
        else
          (unpackPairsCount fuel (b - 0xe0) rest ol []).bind fun r =>
            some (.omap r.1, r.2.1, r.2.2)
      else if 0xa0 ≤ b ∧ b ≤ 0xc0 then
        some (olGet ol (b - 0xa0), rest, ol)
      else if 0xc1 ≤ b ∧ b ≤ 0xc4 then
        (readUIntLEOpt rest (b - 0xc0)).bind fun idx =>
          some (olGet ol idx, rest.drop (b - 0xc0), ol)
      else none

/-- The counted `for`-loop of the array branch. -/
def unpackSeqCount : Nat → Nat → List Nat → List OVal →
    Option (List OVal × List Nat × List OVal)
  | _, 0, data, ol => some ([], data, ol)
  | 0, _ + 1, _, _ => none
  | fuel + 1, count + 1, data, ol =>
    (unpackVal fuel data ol).bind fun r1 =>
      (unpackSeqCount fuel count r1.2.1 r1.2.2).bind fun r2 =>
        some (r1.1 :: r2.1, r2.2)

/-- The `while (ptr[0] !== 0x03)` loop of the sentinel-terminated array
form; running out of bytes re-enters `_unpack` on an empty buffer, which
throws. -/
def unpackSeqSentinel : Nat → List Nat → List OVal →
    Option (List OVal × List Nat × List OVal)
  | 0, _, _ => none
  | fuel + 1, data, ol =>
    if data.head? = some 0x03 then some ([], data.tail, ol)
    else
      (unpackVal fuel data ol).bind fun r1 =>
        (unpackSeqSentinel fuel r1.2.1 r1.2.2).bind fun r2 =>
          some (r1.1 :: r2.1, r2.2)

/-- The counted loop of the map branch: decode key, decode value, insert
under `String(key)` into the object built so far (`acc`), in decode
order. -/
def unpackPairsCount : Nat → Nat → List Nat → List OVal →
    List (List Nat × OVal) →
    Option (List (List Nat × OVal) × List Nat × List OVal)
  | _, 0, data, ol, acc => some (acc, data, ol)
  | 0, _ + 1, _, _, _ => none
  | fuel + 1, count + 1, data, ol, acc =>
    (unpackVal fuel data ol).bind fun rk =>
      (unpackVal fuel rk.2.1 rk.2.2).bind fun rv =>
        unpackPairsCount fuel count rv.2.1 rv.2.2
          (objSet acc (keyOf rk.1) rv.1)

/-- The sentinel loop of the map branch. -/
def unpackPairsSentinel : Nat → List Nat → List OVal →
    List (List Nat × OVal) →
    Option (List (List Nat × OVal) × List Nat × List OVal)
  | 0, _, _, _ => none
  | fuel + 1, data, ol, acc =>
    if data.head? = some 0x03 then some (acc, data.tail, ol)
    else
      (unpackVal fuel data ol).bind fun rk =>
        (unpackVal fuel rk.2.1 rk.2.2).bind fun rv =>
          unpackPairsSentinel fuel rv.2.1 rv.2.2
            (objSet acc (keyOf rk.1) rv.1)

end

/-- `unpack(data)`: run `_unpack` with a fresh reference list and return
the value and the remaining bytes.  The fuel `2 * data.length + 2`
dominates the depth of any call chain `_unpack` can make on `data` (each
value consumes at least one byte and each loop iteration at least one
more), so the model agrees with the un-fuelled JS recursion. -/
def unpack (data : List Nat) : Option (OVal × List Nat) :=
  (unpackVal (2 * data.length + 2) data []).map fun r => (r.1, r.2.1)

/-! ## Derived notions used to state the OPACK round-trip theorem -/

/-- The encoding `_pack` computes for one atomic (non-container) value
before the deduplication step (junk for containers and `ofloat32`, which
no theorem exercises). -/
def atomEnc : OVal → List Nat
  | .onull => [0x04]
  | .oundefined => [0x04]
  | .obool b => [if b then 0x01 else 0x02]
  | .oint n => packInteger n
  | .ofloat bs => 0x36 :: bs
  | .ostr s => packString s
  | .obytes bs => packBytes bs
  | _ => []

/-- Atomic values on which encoder and decoder demonstrably agree:
  * `null` and booleans;
  * integers below `2^64` (beyond, `writeBigUInt64LE` faults);
  * float64 values (8 payload bytes);
  * non-empty strings shorter than `0x10000` bytes (the decoder's
    `readUIntLE` does not support the 3-byte length field the encoder
    emits for longer strings, and the decoder pools empty strings while
    the encoder does not);
  * non-empty byte strings shorter than `2^64` (same pooling asymmetry
    for empty ones).
`undefined` is excluded: it encodes as `0x04` and decodes as `null`. -/
def GoodAtom : OVal → Prop
  | .onull => True
  | .obool _ => True
  | .oint n => n < 2 ^ 64
  | .ofloat bs => bs.length = 8
  | .ostr s => s ≠ [] ∧ s.length < 0x10000
  | .obytes bs => bs ≠ [] ∧ bs.length < 2 ^ 64
  | _ => False

instance : DecidablePred GoodAtom := fun a => by
  cases a <;> simp only [GoodAtom] <;> infer_instance

/-- Invariant of the encoder's object pool during flat packing: it holds
exactly the encodings of the good atoms pooled so far (the decoder's
reference list holds the atoms themselves, at the same indices). -/
def PoolGood (as : List OVal) : Prop :=
  ∀ a ∈ as, GoodAtom a ∧ 1 < (atomEnc a).length

/-- Values of nesting depth at most one on which the round-trip theorem is
stated: a good atom, an array of at most `0xffff` good atoms, or a map of
at most `0x7fff` entries with distinct keys (JS `Object.entries` never
yields duplicate keys) whose keys and values are good atoms.  The size
bounds keep every back-reference the encoder emits within the two-byte
index form, where encoder pool and decoder reference list stay aligned. -/
def GoodFlat : OVal → Prop
  | .oarr xs => (∀ a ∈ xs, GoodAtom a) ∧ xs.length ≤ 0xffff
  | .omap kvs => (∀ kv ∈ kvs, GoodAtom (.ostr kv.1) ∧ GoodAtom kv.2) ∧
      (kvs.map Prod.fst).Nodup ∧ kvs.length ≤ 0x7fff
  | a => GoodAtom a

instance : DecidablePred GoodFlat := fun v => by
  cases v <;> simp only [GoodFlat] <;> infer_instance

/-! # Theorems -/

/-! ## TLV8 lemmas -/

theorem tlvInsert_twice (tag : Nat) (A B : List Nat) :
    ∀ acc, tlvInsert (tlvInsert acc tag A) tag B = tlvInsert acc tag (A ++ B)
  | [] => by simp [tlvInsert]
  | (t, v) :: rest => by
    by_cases h : t = tag
    · simp [tlvInsert, h, List.append_assoc]
    · simp [tlvInsert, h, tlvInsert_twice tag A B rest]

theorem readTlvGo_nil (f : Nat) (acc : List (Nat × List Nat)) :
    readTlvGo f [] acc = acc := by
  cases f <;> rfl

/-- The fuel of `writeTlvGo` is irrelevant once it exceeds the value
length. -/
theorem writeTlvGo_fuel_irrel (tag : Nat) :
    ∀ f1 f2 v, v.length < f1 → v.length < f2 →
      writeTlvGo f1 tag v = writeTlvGo f2 tag v := by
  intro f1
  induction f1 generalizing tag with
  | zero => intro f2 v h1; omega
  | succ d1 ih =>
    intro f2 v h1 h2
    match f2, v with
    | g + 1, [] => rfl
    | g + 1, b :: bs =>
      simp only [writeTlvGo]
      split_ifs with hle
      · rfl
      · rw [ih tag g ((b :: bs).drop 255) (by simp at h1 ⊢; omega)
          (by simp at h2 ⊢; omega)]

/-- Reading back one written TLV entry (with any sufficient fuel)
concatenates its value onto the accumulated map under its tag. -/
theorem readTlvGo_writeTlvEntry (tag : Nat) :
    ∀ n value, value.length ≤ n → ∀ fuel acc,
      (writeTlvEntry tag value).length ≤ fuel →
      readTlvGo fuel (writeTlvEntry tag value) acc =
        tlvInsert acc (tag % 256) value := by
  intro n
  induction n with
  | zero =>
    intro value hlen fuel acc hfuel
    have hv : value = [] := List.eq_nil_of_length_eq_zero (by omega)
    subst hv
    simp only [writeTlvEntry, writeTlvGo] at hfuel ⊢
    obtain ⟨f, rfl⟩ : ∃ f, fuel = f + 1 := ⟨fuel - 1, by simp at hfuel; omega⟩
    simp [readTlvGo, readTlvGo_nil, tlvInsert]
  | succ n ih =>
    intro value hlen fuel acc hfuel
    match value with
    | [] =>
      simp only [writeTlvEntry, writeTlvGo] at hfuel ⊢
      obtain ⟨f, rfl⟩ : ∃ f, fuel = f + 1 := ⟨fuel - 1, by simp at hfuel; omega⟩
      simp [readTlvGo, readTlvGo_nil, tlvInsert]
    | b :: bs =>
      by_cases h255 : (b :: bs).length ≤ 255
      · have hE : writeTlvEntry tag (b :: bs) =
            tag % 256 :: (b :: bs).length :: (b :: bs) := by
          simp only [writeTlvEntry, writeTlvGo]
          rw [if_pos h255]
        rw [hE] at hfuel ⊢
        obtain ⟨f, rfl⟩ : ∃ f, fuel = f + 1 := ⟨fuel - 1, by simp at hfuel; omega⟩
        simp [readTlvGo, readTlvGo_nil, List.take_length]
      · have hdrop : ((b :: bs).drop 255).length = (b :: bs).length - 255 := by
          simp
        have hE : writeTlvEntry tag (b :: bs) =
            tag % 256 :: 255 ::
              ((b :: bs).take 255 ++ writeTlvEntry tag ((b :: bs).drop 255)) := by
          simp only [writeTlvEntry, writeTlvGo]
          rw [if_neg h255]
          rw [writeTlvGo_fuel_irrel tag (b :: bs).length
            (((b :: bs).drop 255).length + 1) ((b :: bs).drop 255)
            (by simp; omega) (by omega)]
        rw [hE] at hfuel ⊢
        obtain ⟨f, rfl⟩ : ∃ f, fuel = f + 1 := ⟨fuel - 1, by simp at hfuel; omega⟩
        have hlen255 : 255 ≤ (b :: bs).length := by omega
        have htake : ((b :: bs).take 255).length = 255 := by
          rw [List.length_take]; omega
        simp only [readTlvGo]
        rw [List.take_left' htake, List.drop_left' htake]
        rw [ih ((b :: bs).drop 255) (by simp at hlen ⊢; omega) f
          (tlvInsert acc (tag % 256) ((b :: bs).take 255))
          (by simp only [List.length_cons, List.length_append, htake] at hfuel
              omega)]
        rw [tlvInsert_twice, List.take_append_drop]

theorem mapGet_mapSet_self {α : Type} (m : List (Nat × α)) (k : Nat) (v : α) :
    mapGet (mapSet m k v) k = some v := by
  induction m with
  | nil => simp [mapSet, mapGet]
  | cons p rest ih =>
    by_cases h : p.1 = k
    · simp [mapSet, mapGet, h]
    · simp [mapSet, mapGet, h, ih]

/-! ## Claim theorems: TLV8 -/

/-- C3 (counterexample): on the buffer `03 05 AA` — tag 3 declaring five
value bytes with only one remaining — the TLV8 reader does not fail at
all: it returns the successfully parsed map sending tag `0x03` to the one
available byte.  There is no `Truncated` error path in `readTlv`. -/
theorem readTlv_truncation_claim_counterexample :
    readTlv [0x03, 0x05, 0xAA] = [(0x03, [0xAA])] := by decide

/-- C3 (amended): whenever the scan reaches a record whose declared length
byte exceeds the number of bytes remaining after it — whatever has been
accumulated so far — the reader does not fail with any error:
`Buffer.subarray` clamps, so that record's value is truncated to the
remaining bytes, merged into the map, and the scan completes; in
particular on a buffer holding such a record the reader returns a
successfully parsed map. -/
theorem readTlv_overlong_length_truncates (tag len : Nat) (tail : List Nat)
    (h : tail.length < len) :
    (∀ acc fuel, 1 ≤ fuel →
      readTlvGo fuel (tag :: len :: tail) acc = tlvInsert acc tag tail) ∧
    readTlv (tag :: len :: tail) = [(tag, tail)] := by
  have hgo : ∀ acc fuel, 1 ≤ fuel →
      readTlvGo fuel (tag :: len :: tail) acc = tlvInsert acc tag tail := by
    intro acc fuel hfuel
    obtain ⟨f, rfl⟩ : ∃ f, fuel = f + 1 := ⟨fuel - 1, by omega⟩
    simp only [readTlvGo]
    rw [List.take_of_length_le (by omega), List.drop_eq_nil_of_le (by omega)]
    exact readTlvGo_nil f _
  refine ⟨hgo, ?_⟩
  rw [readTlv, hgo [] _ (by simp)]
  rfl

theorem readTlv_overlong_length_truncates_witness :
    readTlv [7, 9, 1, 2] = [(7, [1, 2])] :=
  (readTlv_overlong_length_truncates 7 9 [1, 2] (by decide)).2

set_option maxRecDepth 8000 in
/-- C4: writing the single-entry map sending tag `0x03` to 300 bytes of
`0xAA` yields exactly `03 FF <255 × AA> 03 2D <45 × AA>`, and reading that
back yields the single 300-byte value again; in general a single written
entry (any value length) reads back as itself — the writer fragments into
at-most-255-byte records with the same tag and the reader reassembles
duplicate tags by concatenation in order. -/
theorem tlv_fragmentation_roundtrip :
    writeTlv [(0x03, List.replicate 300 0xAA)] =
      [0x03, 0xFF] ++ List.replicate 255 0xAA ++ [0x03, 0x2D] ++
        List.replicate 45 0xAA ∧
    readTlv ([0x03, 0xFF] ++ List.replicate 255 0xAA ++ [0x03, 0x2D] ++
        List.replicate 45 0xAA) =
      [(0x03, List.replicate 300 0xAA)] ∧
    ∀ tag value, tag < 256 →
      readTlv (writeTlv [(tag, value)]) = [(tag, value)] := by
  refine ⟨by decide, by decide, ?_⟩
  intro tag value htag
  have h1 : writeTlv [(tag, value)] = writeTlvEntry tag value := by
    simp [writeTlv]
  rw [h1, readTlv,
    readTlvGo_writeTlvEntry tag value.length value le_rfl
      (writeTlvEntry tag value).length [] le_rfl]
  simp [tlvInsert, Nat.mod_eq_of_lt htag]

theorem tlv_fragmentation_roundtrip_witness :
    readTlv (writeTlv [(7, [1, 2, 3])]) = [(7, [1, 2, 3])] :=
  tlv_fragmentation_roundtrip.2.2 7 [1, 2, 3] (by decide)

/-! ## Claim theorems: OPACK back-reference example -/

/-- C2 (counterexample): `pack(["abc","abc"])` does not produce
`D2 43 61 62 63 A1`: the back-reference byte the encoder emits is `0xA0`
(index 0), not `0xA1`, because the array's own encoding is pooled only
after its elements, so the first element "abc" sits at index 0. -/
theorem opack_backref_claim_counterexample :
    pack (.oarr [.ostr [0x61, 0x62, 0x63], .ostr [0x61, 0x62, 0x63]]) ≠
      [0xD2, 0x43, 0x61, 0x62, 0x63, 0xA1] := by decide

/-- C2 (amended): `pack(["abc","abc"])` produces exactly the six bytes
`D2 43 61 62 63 A0` — the second occurrence of "abc" is a back-reference
with index 0, the index of the first occurrence's encoding (the array
header is pooled only after its elements, so it does not occupy index 0). -/
theorem opack_backref_index_zero :
    pack (.oarr [.ostr [0x61, 0x62, 0x63], .ostr [0x61, 0x62, 0x63]]) =
      [0xD2, 0x43, 0x61, 0x62, 0x63, 0xA0] := by decide

/-! ## Claim theorems: transport and cipher -/

/-- C5: with encryption disabled a sent frame is the 1-byte type, the
3-byte big-endian payload length and the payload (so `(type=8,
payload=[0xE0])` writes `08 00 00 01 E0`); with encryption enabled and a
non-empty payload the length field holds the plaintext length plus 16 and
the 4-byte header is the AAD passed to the AEAD that produces the
ciphertext that follows (counter-mode nonce, out-counter incremented). -/
theorem send_frame_encoding (aead : AeadFn) (st : Chacha20State)
    (frameType : Nat) (data : List Nat) (hft : frameType < 256)
    (hdata : data ≠ []) :
    connectionSend aead none frameType data =
      (frameType :: [data.length / 65536 % 256, data.length / 256 % 256,
        data.length % 256] ++ data, none) ∧
    connectionSend aead none 8 [0xE0] = ([8, 0, 0, 1, 0xE0], none) ∧
    connectionSend aead (some st) frameType data =
      (frameHeader frameType (data.length + 16) ++
        aead st.outKey st.getOutNonce
          (some (frameHeader frameType (data.length + 16))) data,
       some { st with outCounter := st.outCounter + 1 }) := by
  have hlen : 0 < data.length := List.length_pos.mpr hdata
  refine ⟨?_, rfl, ?_⟩
  · simp [connectionSend, frameHeader, Nat.mod_eq_of_lt hft]
  · simp only [connectionSend, hlen, if_pos, Chacha20State.encrypt]

theorem send_frame_encoding_witness :
    connectionSend (fun _ _ _ d => d ++ List.replicate 16 0) none 3 [9] =
      ([3, 0, 0, 1, 9], none) ∧
    connectionSend (fun _ _ _ d => d ++ List.replicate 16 0) none 8 [0xE0] =
      ([8, 0, 0, 1, 0xE0], none) ∧
    connectionSend (fun _ _ _ d => d ++ List.replicate 16 0)
        (some ⟨[], [], 0, 0, 12⟩) 3 [9] =
      (frameHeader 3 17 ++
        ((fun (_ _ : List Nat) (_ : Option (List Nat)) (d : List Nat) =>
            d ++ List.replicate 16 0) [] (Chacha20State.getOutNonce ⟨[], [], 0, 0, 12⟩)
          (some (frameHeader 3 17)) [9]),
       some ⟨[], [], 1, 0, 12⟩) :=
  send_frame_encoding (fun _ _ _ d => d ++ List.replicate 16 0)
    ⟨[], [], 0, 0, 12⟩ 3 [9] (by decide) (by decide)

/-- C6: in counter mode (12-byte nonce length) the nonce is the 64-bit
little-endian counter in the low 8 bytes with the top 4 bytes zero
(`outCounter = 5` gives `05 00 00 00 00 00 00 00 00 00 00 00`), and an
explicit nonce shorter than 12 bytes is padded with zeroes on the high
(front) side before use (`"PV-Msg02"` gives
`00 00 00 00 50 56 2D 4D 73 67 30 32`). -/
theorem nonce_formation (aead : AeadFn) (st : Chacha20State)
    (data : List Nat) (n : List Nat) (aad : Option (List Nat))
    (hst : st.nonceLength = 12) (hn : n.length < 12) :
    st.getOutNonce = leWrite 8 st.outCounter ++ [0, 0, 0, 0] ∧
    Chacha20State.getOutNonce ⟨[], [], 5, 0, 12⟩ =
      [5, 0, 0, 0, 0, 0, 0, 0, 0, 0, 0, 0] ∧
    (st.encrypt aead data (some n) aad).1 =
      aead st.outKey (List.replicate (12 - n.length) 0 ++ n) aad data ∧
    Chacha20State.padNonce [0x50, 0x56, 0x2D, 0x4D, 0x73, 0x67, 0x30, 0x32] =
      [0, 0, 0, 0, 0x50, 0x56, 0x2D, 0x4D, 0x73, 0x67, 0x30, 0x32] := by
  refine ⟨?_, by decide, ?_, by decide⟩
  · simp only [Chacha20State.getOutNonce, hst, Chacha20State.leCounterBuf]
    simp [List.range_succ, leWrite, Nat.div_div_eq_div_mul]
  · simp only [Chacha20State.encrypt, if_pos hn, Chacha20State.padNonce,
      if_neg (by omega : ¬12 ≤ n.length)]

theorem nonce_formation_witness :
    Chacha20State.getOutNonce ⟨[], [], 5, 0, 12⟩ =
      leWrite 8 5 ++ [0, 0, 0, 0] ∧
    Chacha20State.padNonce [0x50, 0x56, 0x2D, 0x4D, 0x73, 0x67, 0x30, 0x32] =
      [0, 0, 0, 0, 0x50, 0x56, 0x2D, 0x4D, 0x73, 0x67, 0x30, 0x32] :=
  ⟨(nonce_formation (fun _ _ _ d => d) ⟨[], [], 5, 0, 12⟩ [] [] none rfl
      (by decide)).1,
   (nonce_formation (fun _ _ _ d => d) ⟨[], [], 5, 0, 12⟩ [] [] none rfl
      (by decide)).2.2.2⟩

/-- C10: calling `encrypt` or `decrypt` with an explicit nonce leaves the
entire cipher state (both keys, both counters, the nonce length)
unchanged; with the nonce omitted, `encrypt` increments exactly
`outCounter` and `decrypt` exactly `inCounter`, leaving every other field
unchanged. -/
theorem cipher_counter_effects (aead : AeadFn) (st : Chacha20State)
    (data n : List Nat) (aad : Option (List Nat)) :
    (st.encrypt aead data (some n) aad).2 = st ∧
    (st.decrypt aead data (some n) aad).2 = st ∧
    (st.encrypt aead data none aad).2 =
      { st with outCounter := st.outCounter + 1 } ∧
    (st.decrypt aead data none aad).2 =
      { st with inCounter := st.inCounter + 1 } :=
  ⟨rfl, rfl, rfl, rfl⟩

/-! ## Claim theorems: dispatch layer -/

/-- C7: on connection loss every entry of the pending-request table and
the pending-auth table is rejected — each completion exactly once, given
that distinct pending entries hold distinct completions, as JS `Map`s of
freshly created promise executors do — no completion is resolved, and
afterwards both tables are empty. -/
theorem connectionLost_rejects_all (st : CompanionProtocolState)
    (hnodup : (st.pendingRequests.map Prod.snd ++
      st.pendingAuth.map Prod.snd).Nodup) :
    (connectionLost st).2.pendingRequests = [] ∧
    (connectionLost st).2.pendingAuth = [] ∧
    (connectionLost st).1 =
      (st.pendingRequests.map Prod.snd ++ st.pendingAuth.map Prod.snd).map
        CompletionAction.reject ∧
    (∀ a ∈ (connectionLost st).1, ∃ id, a = CompletionAction.reject id) ∧
    ∀ id ∈ st.pendingRequests.map Prod.snd ++ st.pendingAuth.map Prod.snd,
      (connectionLost st).1.count (CompletionAction.reject id) = 1 := by
  have hmap : (connectionLost st).1 =
      (st.pendingRequests.map Prod.snd ++ st.pendingAuth.map Prod.snd).map
        CompletionAction.reject := by
    simp [connectionLost, List.map_map, Function.comp_def]
  refine ⟨rfl, rfl, hmap, ?_, ?_⟩
  · intro a ha
    rw [hmap] at ha
    obtain ⟨id, _, rfl⟩ := List.mem_map.mp ha
    exact ⟨id, rfl⟩
  · intro id hid
    rw [hmap]
    rw [List.count_map_of_injective _ CompletionAction.reject
      (fun a b h => by injection h) id]
    exact List.count_eq_one_of_mem hnodup hid

theorem connectionLost_rejects_all_witness :
    (connectionLost ⟨9, [(1, 10)], [(4, 20)]⟩).2.pendingRequests = [] ∧
    (connectionLost ⟨9, [(1, 10)], [(4, 20)]⟩).2.pendingAuth = [] ∧
    (connectionLost ⟨9, [(1, 10)], [(4, 20)]⟩).1 =
      ([(1, 10)].map Prod.snd ++ [(4, 20)].map Prod.snd).map
        CompletionAction.reject ∧
    (∀ a ∈ (connectionLost ⟨9, [(1, 10)], [(4, 20)]⟩).1,
      ∃ id, a = CompletionAction.reject id) ∧
    ∀ id ∈ [(1, 10)].map Prod.snd ++ [(4, 20)].map Prod.snd,
      (connectionLost ⟨9, [(1, 10)], [(4, 20)]⟩).1.count
        (CompletionAction.reject id) = 1 :=
  connectionLost_rejects_all ⟨9, [(1, 10)], [(4, 20)]⟩ (by decide)

/-- C8 (counterexample): `exchangeOpack` allocates `const xid = this.xid++`
with no reduction modulo `2^32`: from the counter state `2^32` (reachable —
the counter starts below `2^16` and only ever increments by one) the id
placed in the outgoing request is `2^32` itself, which differs from the
counter reduced modulo `2^32`, namely `0`. -/
theorem sendCommand_xid_mod_counterexample :
    (sendCommand ⟨2 ^ 32, [], []⟩ ([] : List Nat) (0 : Nat) 0).1.x =
      some (2 ^ 32) ∧
    2 ^ 32 % 2 ^ 32 = 0 ∧ (2 ^ 32 : Nat) ≠ 0 :=
  ⟨rfl, by norm_num, by norm_num⟩

/-- C8 (amended): `sendCommand` composes `\x7b _i, _t = Request, _c \x7d`
and allocates `_x = currentTransactionId++` with no modulo: the id placed
in the outgoing request equals the counter value itself, the counter then
holds its successor (so successive calls use consecutive ids without
wrapping), and the pending-request entry is registered under that same
id. -/
theorem sendCommand_xid_allocation {α : Type} (st : CompanionProtocolState)
    (identifier : List Nat) (content : α) (completion : Nat) :
    (sendCommand st identifier content completion).1 =
      { ident := identifier, msgType := 2, content := content,
        x := some st.xid } ∧
    (sendCommand st identifier content completion).2.xid = st.xid + 1 ∧
    mapGet (sendCommand st identifier content completion).2.pendingRequests
      st.xid = some completion :=
  ⟨rfl, rfl, mapGet_mapSet_self st.pendingRequests st.xid completion⟩

/-! ## Pending-auth overwrite (C9) -/

theorem mapGet_mem_values {α : Type} (m : List (Nat × α)) (k : Nat) (v : α) :
    mapGet m k = some v → v ∈ m.map Prod.snd := by
  induction m with
  | nil => simp [mapGet]
  | cons p rest ih =>
    intro hv
    by_cases h : p.1 = k
    · have h2 : p.2 = v := by simpa [mapGet, h] using hv
      simp [List.mem_cons, ← h2]
    · have hv2 : mapGet rest k = some v := by simpa [mapGet, h] using hv
      simp only [List.map_cons, List.mem_cons]
      exact Or.inr (ih hv2)

theorem mapDelete_values_subset {α : Type} (m : List (Nat × α)) (k : Nat)
    (v : α) : v ∈ (mapDelete m k).map Prod.snd → v ∈ m.map Prod.snd := by
  induction m with
  | nil => simp [mapDelete]
  | cons p rest ih =>
    intro hv
    by_cases h : p.1 = k
    · rw [show mapDelete (p :: rest) k = rest from by simp [mapDelete, h]] at hv
      simp only [List.map_cons, List.mem_cons]
      exact Or.inr hv
    · rw [show mapDelete (p :: rest) k = p :: mapDelete rest k from by
        simp [mapDelete, h]] at hv
      simp only [List.map_cons, List.mem_cons] at hv ⊢
      rcases hv with hv | hv
      · exact Or.inl hv
      · exact Or.inr (ih hv)

theorem mapSet_values_subset {α : Type} (m : List (Nat × α)) (k : Nat)
    (w v : α) : v ∈ (mapSet m k w).map Prod.snd →
      v = w ∨ v ∈ m.map Prod.snd := by
  induction m with
  | nil => simp [mapSet]
  | cons p rest ih =>
    intro hv
    by_cases h : p.1 = k
    · rw [show mapSet (p :: rest) k w = (p.1, w) :: rest from by
        simp [mapSet, h]] at hv
      simp only [List.map_cons, List.mem_cons] at hv ⊢
      rcases hv with hv | hv
      · exact Or.inl hv
      · exact Or.inr (Or.inr hv)
    · rw [show mapSet (p :: rest) k w = p :: mapSet rest k w from by
        simp [mapSet, h]] at hv
      simp only [List.map_cons, List.mem_cons] at hv ⊢
      rcases hv with hv | hv
      · exact Or.inr (Or.inl hv)
      · rcases ih hv with h1 | h1
        · exact Or.inl h1
        · exact Or.inr (Or.inr h1)

/-- Overwriting the sole entry that holds `oldId` (it sits under key `k`,
and a `Map` has no duplicate keys) removes `oldId` from the table's
values. -/
theorem mapSet_removes_value (tbl : List (Nat × Nat)) (k oldId newId : Nat)
    (hkeys : (tbl.map Prod.fst).Nodup)
    (hold : mapGet tbl k = some oldId)
    (holdOnly : ∀ p ∈ tbl, p.2 = oldId → p.1 = k)
    (hnew : newId ≠ oldId) :
    oldId ∉ (mapSet tbl k newId).map Prod.snd := by
  induction tbl with
  | nil => simp [mapGet] at hold
  | cons p rest ih =>
    by_cases h : p.1 = k
    · have hv : p.2 = oldId := by
        simpa [mapGet, h] using hold
      simp only [mapSet, h, if_true, List.map_cons, List.mem_cons]
      rintro (he | he)
      · exact hnew he.symm
      · obtain ⟨q, hq, hq2⟩ := List.mem_map.mp he
        have hqk : q.1 = k := holdOnly q (List.mem_cons_of_mem p hq) hq2
        have : p.1 ∈ rest.map Prod.fst := by
          rw [h, ← hqk]
          exact List.mem_map.mpr ⟨q, hq, rfl⟩
        exact (List.nodup_cons.mp hkeys).1 this
    · have hp2 : p.2 ≠ oldId := fun he => h (holdOnly p (List.mem_cons_self p rest) he)
      simp only [mapSet, h, if_false, List.map_cons, List.mem_cons]
      rintro (he | he)
      · exact hp2 he.symm
      · exact ih (List.nodup_cons.mp hkeys).2 (by simpa [mapGet, h] using hold)
          (fun q hq hq2 => holdOnly q (List.mem_cons_of_mem p hq) hq2) he

theorem authStep_resolve_mem (tbl : List (Nat × Nat)) (e : AuthEvent)
    (id : Nat) (h : CompletionAction.resolve id ∈ (authStep tbl e).2) :
    id ∈ tbl.map Prod.snd := by
  match e with
  | .frame ft =>
    simp only [authStep] at h
    match hg : mapGet tbl ft with
    | some id0 =>
      rw [hg] at h
      simp at h
      exact h ▸ mapGet_mem_values tbl ft id0 hg
    | none => rw [hg] at h; simp at h
  | .timerFire id2 ft => simp [authStep] at h
  | .registerAuth id2 ft => simp [authStep] at h
  | .connLost =>
    simp only [authStep] at h
    obtain ⟨p, _, hp⟩ := List.mem_map.mp h
    exact absurd hp (by simp)

theorem authStep_reject_mem (tbl : List (Nat × Nat)) (e : AuthEvent)
    (id : Nat) (h : CompletionAction.reject id ∈ (authStep tbl e).2) :
    (∃ ft, e = .timerFire id ft) ∨ id ∈ tbl.map Prod.snd := by
  match e with
  | .frame ft =>
    simp only [authStep] at h
    match hg : mapGet tbl ft with
    | some id0 => rw [hg] at h; simp at h
    | none => rw [hg] at h; simp at h
  | .timerFire id2 ft =>
    simp only [authStep, List.mem_singleton, CompletionAction.reject.injEq] at h
    exact Or.inl ⟨ft, by rw [h]⟩
  | .registerAuth id2 ft => simp [authStep] at h
  | .connLost =>
    simp only [authStep] at h
    obtain ⟨p, hp, he⟩ := List.mem_map.mp h
    right
    have hpid : p.2 = id := by
      simpa [CompletionAction.reject.injEq] using he
    exact hpid ▸ List.mem_map.mpr ⟨p, hp, rfl⟩

theorem authStep_preserves_absent (tbl : List (Nat × Nat)) (e : AuthEvent)
    (id : Nat) (habs : id ∉ tbl.map Prod.snd)
    (hreg : ∀ ft, e ≠ .registerAuth id ft) :
    id ∉ ((authStep tbl e).1).map Prod.snd := by
  match e with
  | .frame ft =>
    simp only [authStep]
    match hg : mapGet tbl ft with
    | some id0 =>
      exact fun h => habs (mapDelete_values_subset tbl ft id h)
    | none => exact habs
  | .timerFire id2 ft =>
    exact fun h => habs (mapDelete_values_subset tbl ft id h)
  | .registerAuth id2 ft =>
    intro h
    rcases mapSet_values_subset tbl ft id2 id h with h1 | h1
    · exact hreg ft (by rw [h1])
    · exact habs h1
  | .connLost => simp [authStep]

/-- An id absent from the table and never re-registered is never resolved;
it can be rejected only by its own timer event. -/
theorem runAuth_orphan (id : Nat) :
    ∀ evs tbl, id ∉ tbl.map Prod.snd →
      (∀ ft, AuthEvent.registerAuth id ft ∉ evs) →
      CompletionAction.resolve id ∉ runAuth tbl evs ∧
      (CompletionAction.reject id ∈ runAuth tbl evs →
        ∃ ft, AuthEvent.timerFire id ft ∈ evs) := by
  intro evs
  induction evs with
  | nil => intro tbl _ _; simp [runAuth]
  | cons e evs ih =>
    intro tbl habs hreg
    have hreg1 : ∀ ft, e ≠ .registerAuth id ft := by
      intro ft he
      exact hreg ft (he ▸ List.mem_cons_self e evs)
    have hrest := ih ((authStep tbl e).1)
      (authStep_preserves_absent tbl e id habs hreg1)
      (fun ft hm => hreg ft (List.mem_cons_of_mem e hm))
    constructor
    · intro h
      rcases List.mem_append.mp h with h1 | h1
      · exact habs (authStep_resolve_mem tbl e id h1)
      · exact hrest.1 h1
    · intro h
      rcases List.mem_append.mp h with h1 | h1
      · rcases authStep_reject_mem tbl e id h1 with ⟨ft, rfl⟩ | h2
        · exact ⟨ft, List.mem_cons_self _ _⟩
        · exact absurd h2 habs
      · obtain ⟨ft, hft⟩ := hrest.2 h1
        exact ⟨ft, List.mem_cons_of_mem e hft⟩

/-- C9: a second `exchangeAuth` that expects the same reply frame type
overwrites the earlier pending-auth entry (the table is keyed only by the
reply type): afterwards the table maps that reply type to the new
completion and the old completion is gone from the table, so under any
further sequence of events (incoming auth frames, timer firings, further
registrations of other exchanges, connection loss) the old completion is
never resolved, and is rejected only when its own timer fires. -/
theorem exchangeAuth_overwrite_orphan (tbl : List (Nat × Nat))
    (frameType oldId newId : Nat) (evs : List AuthEvent)
    (hkeys : (tbl.map Prod.fst).Nodup)
    (hold : mapGet tbl (responseTypeFor frameType) = some oldId)
    (holdOnly : ∀ p ∈ tbl, p.2 = oldId → p.1 = responseTypeFor frameType)
    (hnew : newId ≠ oldId)
    (hreg : ∀ ft, AuthEvent.registerAuth oldId ft ∉ evs) :
    mapGet (exchangeAuthRegister tbl frameType newId)
      (responseTypeFor frameType) = some newId ∧
    oldId ∉ (exchangeAuthRegister tbl frameType newId).map Prod.snd ∧
    CompletionAction.resolve oldId ∉
      runAuth (exchangeAuthRegister tbl frameType newId) evs ∧
    (CompletionAction.reject oldId ∈
        runAuth (exchangeAuthRegister tbl frameType newId) evs →
      ∃ ft, AuthEvent.timerFire oldId ft ∈ evs) := by
  have habs : oldId ∉ (exchangeAuthRegister tbl frameType newId).map Prod.snd :=
    mapSet_removes_value tbl (responseTypeFor frameType) oldId newId hkeys
      hold holdOnly hnew
  have horphan := runAuth_orphan oldId evs
    (exchangeAuthRegister tbl frameType newId) habs hreg
  exact ⟨mapGet_mapSet_self tbl (responseTypeFor frameType) newId, habs,
    horphan.1, horphan.2⟩

/-! ## OPACK: decoding one encoded atom

One lemma per decoder branch the encoder can target.  Branches whose tag
byte is a literal reduce by `simp`; branches with a symbolic tag byte
resolve the decoder's condition chain by arithmetic. -/

theorem unpack_branch_onull (g : Nat) (rest : List Nat) (ol : List OVal) :
    unpackVal (g + 1) (0x04 :: rest) ol = some (.onull, rest, ol) := by
  simp [unpackVal]

theorem unpack_branch_obool (g : Nat) (b : Bool) (rest : List Nat) (ol : List OVal) :
    unpackVal (g + 1) ((if b then 0x01 else 0x02) :: rest) ol =
      some (.obool b, rest, ol) := by
  cases b <;> simp [unpackVal]

theorem unpack_branch_smallint (g n : Nat) (h : n < 0x28) (rest : List Nat)
    (ol : List OVal) :
    unpackVal (g + 1) ((n + 8) :: rest) ol = some (.oint n, rest, ol) := by
  simp only [unpackVal]
  rw [if_neg (by omega), if_neg (by first | omega), if_neg (by omega),
    if_neg (by first | omega), if_neg (by omega), if_pos (by omega : _ ∧ _)]
  simp

theorem unpack_branch_int1 (g n : Nat) (rest : List Nat) (ol : List OVal) :
    unpackVal (g + 1) (0x30 :: n :: rest) ol =
      some (.oint n, rest, if OVal.oint n ∈ ol then ol else ol ++ [.oint n]) := by
  simp [unpackVal, readUIntLEOpt, leRead, pushNew]

theorem unpack_branch_int2 (g n : Nat) (h : n ≤ 0xffff) (rest : List Nat)
    (ol : List OVal) :
    unpackVal (g + 1) (0x31 :: (leWrite 2 n ++ rest)) ol =
      some (.oint n, rest, if OVal.oint n ∈ ol then ol else ol ++ [.oint n]) := by
  simp only [unpackVal]
  norm_num [readUIntLEOpt, leWrite_length]
  rw [leRead_append 2 (leWrite 2 n) rest (leWrite_length 2 n),
    leRead_leWrite 2 n (by simp only [show (256 : Nat) ^ 2 = 65536 from by norm_num]; omega)]
  simp [pushNew, List.take_left, List.drop_left]

theorem unpack_branch_int4 (g n : Nat) (h : n ≤ 0xffffffff) (rest : List Nat)
    (ol : List OVal) :
    unpackVal (g + 1) (0x32 :: (leWrite 4 n ++ rest)) ol =
      some (.oint n, rest, if OVal.oint n ∈ ol then ol else ol ++ [.oint n]) := by
  simp only [unpackVal]
  norm_num [readUIntLEOpt, leWrite_length]
  rw [leRead_append 4 (leWrite 4 n) rest (leWrite_length 4 n),
    leRead_leWrite 4 n (by simp only [show (256 : Nat) ^ 4 = 4294967296 from by norm_num]; omega)]
  simp [pushNew, List.take_left, List.drop_left]

theorem unpack_branch_int8 (g n : Nat) (h : n < 2 ^ 64) (rest : List Nat)
    (ol : List OVal) :
    unpackVal (g + 1) (0x33 :: (leWrite 8 n ++ rest)) ol =
      some (.oint n, rest, if OVal.oint n ∈ ol then ol else ol ++ [.oint n]) := by
  simp only [unpackVal]
  norm_num [readUIntLEOpt, leWrite_length]
  rw [leRead_append 8 (leWrite 8 n) rest (leWrite_length 8 n),
    leRead_leWrite 8 n (by simp only [show (256 : Nat) ^ 8 = 2 ^ 64 from by norm_num]; omega)]
  simp [pushNew, List.take_left, List.drop_left]

theorem unpack_branch_float (g : Nat) (bs : List Nat) (h : bs.length = 8)
    (rest : List Nat) (ol : List OVal) :
    unpackVal (g + 1) (0x36 :: (bs ++ rest)) ol =
      some (.ofloat bs, rest, if OVal.ofloat bs ∈ ol then ol else ol ++ [.ofloat bs]) := by
  simp only [unpackVal]
  norm_num
  refine ⟨by omega, ?_⟩
  rw [List.take_left' h, List.drop_left' h]
  simp [pushNew, List.take_left, List.drop_left]

theorem unpack_branch_str_inline (g len : Nat) (h1 : 1 ≤ len) (h2 : len ≤ 0x20)
    (s rest : List Nat) (hs : s.length = len) (ol : List OVal) :
    unpackVal (g + 1) ((0x40 + len) :: (s ++ rest)) ol =
      some (.ostr s, rest, if OVal.ostr s ∈ ol then ol else ol ++ [.ostr s]) := by
  simp only [unpackVal]
  rw [if_neg (by first | omega), if_neg (by omega), if_neg (by first | omega),
    if_neg (by omega), if_neg (by first | omega), if_neg (by omega),
    if_neg (by first | omega), if_neg (by omega), if_neg (by first | omega),
    if_pos (by omega : _ ∧ _)]
  rw [show 0x40 + len - 0x40 = len from by omega,
    List.take_left' hs, List.drop_left' hs]
  simp [pushNew, List.take_left, List.drop_left]

theorem unpack_branch_str1 (g : Nat) (s rest : List Nat) (h : s.length ≤ 0xff)
    (ol : List OVal) :
    unpackVal (g + 1) (0x61 :: s.length :: (s ++ rest)) ol =
      some (.ostr s, rest, if OVal.ostr s ∈ ol then ol else ol ++ [.ostr s]) := by
  simp only [unpackVal]
  norm_num [readUIntLEOpt, leRead]
  simp [pushNew, List.take_left, List.drop_left]

theorem unpack_branch_str2 (g : Nat) (s rest : List Nat) (h : s.length ≤ 0xffff)
    (ol : List OVal) :
    unpackVal (g + 1) (0x62 :: (leWrite 2 s.length ++ (s ++ rest))) ol =
      some (.ostr s, rest, if OVal.ostr s ∈ ol then ol else ol ++ [.ostr s]) := by
  simp only [unpackVal]
  norm_num [readUIntLEOpt, leWrite_length]
  rw [leRead_append 2 (leWrite 2 s.length) (s ++ rest) (leWrite_length 2 s.length),
    leRead_leWrite 2 s.length (by simp only [show (256 : Nat) ^ 2 = 65536 from by norm_num]; omega),
    List.take_left, List.drop_left]
  simp [pushNew, List.take_left, List.drop_left]

theorem unpack_branch_bytes_inline (g len : Nat) (h1 : 1 ≤ len) (h2 : len ≤ 0x20)
    (bs rest : List Nat) (hb : bs.length = len) (ol : List OVal) :
    unpackVal (g + 1) ((0x70 + len) :: (bs ++ rest)) ol =
      some (.obytes bs, rest,
        if OVal.obytes bs ∈ ol then ol else ol ++ [.obytes bs]) := by
  simp only [unpackVal]
  rw [if_neg (by omega), if_neg (by first | omega), if_neg (by omega),
    if_neg (by first | omega), if_neg (by omega), if_neg (by first | omega),
    if_neg (by omega), if_neg (by first | omega), if_neg (by omega),
    if_neg (by first | omega), if_neg (by omega), if_pos (by omega : _ ∧ _)]
  rw [show 0x70 + len - 0x70 = len from by omega,
    List.take_left' hb, List.drop_left' hb]
  simp [pushNew, List.take_left, List.drop_left]

theorem unpack_branch_bytes1 (g : Nat) (bs rest : List Nat) (h : bs.length ≤ 0xff)
    (ol : List OVal) :
    unpackVal (g + 1) (0x91 :: bs.length :: (bs ++ rest)) ol =
      some (.obytes bs, rest,
        if OVal.obytes bs ∈ ol then ol else ol ++ [.obytes bs]) := by
  simp only [unpackVal]
  norm_num [readUIntLEOpt, leRead]
  simp [pushNew, List.take_left, List.drop_left]

theorem unpack_branch_bytes2 (g : Nat) (bs rest : List Nat)
    (h : bs.length ≤ 0xffff) (ol : List OVal) :
    unpackVal (g + 1) (0x92 :: (leWrite 2 bs.length ++ (bs ++ rest))) ol =
      some (.obytes bs, rest,
        if OVal.obytes bs ∈ ol then ol else ol ++ [.obytes bs]) := by
  simp only [unpackVal]
  norm_num [readUIntLEOpt, leWrite_length]
  rw [leRead_append 2 (leWrite 2 bs.length) (bs ++ rest) (leWrite_length 2 bs.length),
    leRead_leWrite 2 bs.length (by simp only [show (256 : Nat) ^ 2 = 65536 from by norm_num]; omega),
    List.take_left, List.drop_left]
  simp [pushNew, List.take_left, List.drop_left]

theorem unpack_branch_bytes4 (g : Nat) (bs rest : List Nat)
    (h : bs.length ≤ 0xffffffff) (ol : List OVal) :
    unpackVal (g + 1) (0x93 :: (leWrite 4 bs.length ++ (bs ++ rest))) ol =
      some (.obytes bs, rest,
        if OVal.obytes bs ∈ ol then ol else ol ++ [.obytes bs]) := by
  simp only [unpackVal]
  norm_num [readUIntLEOpt, leWrite_length]
  rw [leRead_append 4 (leWrite 4 bs.length) (bs ++ rest) (leWrite_length 4 bs.length),
    leRead_leWrite 4 bs.length (by simp only [show (256 : Nat) ^ 4 = 4294967296 from by norm_num]; omega),
    List.take_left, List.drop_left]
  simp [pushNew, List.take_left, List.drop_left]

theorem unpack_branch_bytes8 (g : Nat) (bs rest : List Nat)
    (h : bs.length < 2 ^ 64) (ol : List OVal) :
    unpackVal (g + 1) (0x94 :: (leWrite 8 bs.length ++ (bs ++ rest))) ol =
      some (.obytes bs, rest,
        if OVal.obytes bs ∈ ol then ol else ol ++ [.obytes bs]) := by
  simp only [unpackVal]
  norm_num [readUIntLEOpt, leWrite_length]
  rw [leRead_append 8 (leWrite 8 bs.length) (bs ++ rest) (leWrite_length 8 bs.length),
    leRead_leWrite 8 bs.length (by simp only [show (256 : Nat) ^ 8 = 2 ^ 64 from by norm_num]; omega),
    List.take_left, List.drop_left]
  simp [pushNew, List.take_left, List.drop_left]

theorem unpack_branch_backref_inline (g idx : Nat) (h : idx ≤ 0x20)
    (rest : List Nat) (ol : List OVal) :
    unpackVal (g + 1) ((0xa0 + idx) :: rest) ol =
      some (olGet ol idx, rest, ol) := by
  simp only [unpackVal]
  rw [if_neg (by first | omega), if_neg (by omega), if_neg (by first | omega),
    if_neg (by omega), if_neg (by first | omega), if_neg (by omega),
    if_neg (by first | omega), if_neg (by omega), if_neg (by first | omega),
    if_neg (by omega), if_neg (by first | omega), if_neg (by omega),
    if_neg (by first | omega), if_neg (by omega), if_neg (by first | omega),
    if_pos (by omega : _ ∧ _)]
  rw [show 0xa0 + idx - 0xa0 = idx from by omega]

theorem unpack_branch_backref_c1 (g idx : Nat) (rest : List Nat)
    (ol : List OVal) :
    unpackVal (g + 1) (0xc1 :: idx :: rest) ol =
      some (olGet ol idx, rest, ol) := by
  simp [unpackVal, readUIntLEOpt, leRead]

theorem unpack_branch_backref_c2 (g idx : Nat) (h : idx ≤ 0xffff)
    (rest : List Nat) (ol : List OVal) :
    unpackVal (g + 1) (0xc2 :: (leWrite 2 idx ++ rest)) ol =
      some (olGet ol idx, rest, ol) := by
  simp only [unpackVal]
  norm_num [readUIntLEOpt, leWrite_length]
  rw [leRead_append 2 (leWrite 2 idx) rest (leWrite_length 2 idx),
    leRead_leWrite 2 idx (by simp only [show (256 : Nat) ^ 2 = 65536 from by norm_num]; omega)]

theorem unpack_branch_array_header (g count : Nat) (h : count ≤ 0xf)
    (rest : List Nat) (ol : List OVal) :
    unpackVal (g + 1) ((0xd0 + count) :: rest) ol =
      (if count = 0xf then
        (unpackSeqSentinel g rest ol).bind fun r =>
          some (.oarr r.1, r.2.1, r.2.2)
      else
        (unpackSeqCount g count rest ol).bind fun r =>
          some (.oarr r.1, r.2.1, r.2.2)) := by
  simp only [unpackVal]
  rw [if_neg (by omega), if_neg (by first | omega), if_neg (by omega),
    if_neg (by first | omega), if_neg (by omega), if_neg (by first | omega),
    if_neg (by omega), if_neg (by first | omega), if_neg (by omega),
    if_neg (by first | omega), if_neg (by omega), if_neg (by first | omega),
    if_neg (by omega), if_pos (by omega : _ ∧ _)]
  rw [show 0xd0 + count - 0xd0 = count from by omega]

theorem unpack_branch_map_header (g count : Nat) (h : count ≤ 0xf)
    (rest : List Nat) (ol : List OVal) :
    unpackVal (g + 1) ((0xe0 + count) :: rest) ol =
      (if count = 0xf then
        (unpackPairsSentinel g rest ol []).bind fun r =>
          some (.omap r.1, r.2.1, r.2.2)
      else
        (unpackPairsCount g count rest ol []).bind fun r =>
          some (.omap r.1, r.2.1, r.2.2)) := by
  simp only [unpackVal]
  rw [if_neg (by first | omega), if_neg (by omega), if_neg (by first | omega),
    if_neg (by omega), if_neg (by first | omega), if_neg (by omega),
    if_neg (by first | omega), if_neg (by omega), if_neg (by first | omega),
    if_neg (by omega), if_neg (by first | omega), if_neg (by omega),
    if_neg (by first | omega), if_neg (by omega), if_pos (by omega : _ ∧ _)]
  rw [show 0xe0 + count - 0xe0 = count from by omega]

/-- Decoding the encoding of any good atom yields that atom, consumes
exactly its bytes, and appends it to the reference list exactly when its
encoding is longer than one byte and it is not already present. -/
theorem unpackVal_atomEnc (a : OVal) (ha : GoodAtom a) (g : Nat)
    (rest : List Nat) (ol : List OVal) :
    unpackVal (g + 1) (atomEnc a ++ rest) ol =
      some (a, rest,
        if 1 < (atomEnc a).length then
          (if a ∈ ol then ol else ol ++ [a])
        else ol) := by
  match a with
  | .onull =>
    simpa [atomEnc] using unpack_branch_onull g rest ol
  | .oundefined => exact absurd ha (by simp [GoodAtom])
  | .ofloat32 _ => exact absurd ha (by simp [GoodAtom])
  | .oarr _ => exact absurd ha (by simp [GoodAtom])
  | .omap _ => exact absurd ha (by simp [GoodAtom])
  | .obool b =>
    have := unpack_branch_obool g b rest ol
    cases b <;> simpa [atomEnc] using this
  | .oint n =>
    have hn : n < 2 ^ 64 := ha
    by_cases h1 : n < 0x28
    · rw [show atomEnc (.oint n) = [n + 8] from by
        simp [atomEnc, packInteger, h1]]
      simpa using unpack_branch_smallint g n h1 rest ol
    · by_cases h2 : n ≤ 0xff
      · rw [show atomEnc (.oint n) = [0x30, n] from by
          simp [atomEnc, packInteger, h1, h2]]
        simpa using unpack_branch_int1 g n rest ol
      · by_cases h3 : n ≤ 0xffff
        · rw [show atomEnc (.oint n) = 0x31 :: leWrite 2 n from by
            simp [atomEnc, packInteger, h1, h2, h3]]
          simpa [leWrite_length] using unpack_branch_int2 g n h3 rest ol
        · by_cases h4 : n ≤ 0xffffffff
          · rw [show atomEnc (.oint n) = 0x32 :: leWrite 4 n from by
              simp [atomEnc, packInteger, h1, h2, h3, h4]]
            simpa [leWrite_length] using unpack_branch_int4 g n h4 rest ol
          · rw [show atomEnc (.oint n) = 0x33 :: leWrite 8 n from by
              simp [atomEnc, packInteger, h1, h2, h3, h4]]
            simpa [leWrite_length] using unpack_branch_int8 g n hn rest ol
  | .ofloat bs =>
    have h8 : bs.length = 8 := ha
    simpa [atomEnc, h8] using unpack_branch_float g bs h8 rest ol
  | .ostr s =>
    obtain ⟨hne, hlt⟩ := ha
    have hpos : 1 ≤ s.length := List.length_pos.mpr hne
    by_cases h1 : s.length ≤ 0x20
    · rw [show atomEnc (.ostr s) = (0x40 + s.length) :: s from by
        simp [atomEnc, packString, h1]]
      have := unpack_branch_str_inline g s.length hpos h1 s rest rfl ol
      simpa [List.cons_append, show 0 < s.length from hpos] using this
    · by_cases h2 : s.length ≤ 0xff
      · rw [show atomEnc (.ostr s) = 0x61 :: s.length :: s from by
          simp [atomEnc, packString, h1, h2]]
        simpa using unpack_branch_str1 g s rest h2 ol
      · have h3 : s.length ≤ 0xffff := by omega
        rw [show atomEnc (.ostr s) = 0x62 :: (leWrite 2 s.length ++ s) from by
          simp [atomEnc, packString, h1, h2, h3]]
        have := unpack_branch_str2 g s rest h3 ol
        simpa [leWrite_length, List.append_assoc] using this
  | .obytes bs =>
    obtain ⟨hne, hlt⟩ := ha
    have hpos : 1 ≤ bs.length := List.length_pos.mpr hne
    by_cases h1 : bs.length ≤ 0x20
    · rw [show atomEnc (.obytes bs) = (0x70 + bs.length) :: bs from by
        simp [atomEnc, packBytes, h1]]
      have := unpack_branch_bytes_inline g bs.length hpos h1 bs rest rfl ol
      simpa [List.cons_append, show 0 < bs.length from hpos] using this
    · by_cases h2 : bs.length ≤ 0xff
      · rw [show atomEnc (.obytes bs) = 0x91 :: bs.length :: bs from by
          simp [atomEnc, packBytes, h1, h2]]
        simpa using unpack_branch_bytes1 g bs rest h2 ol
      · by_cases h3 : bs.length ≤ 0xffff
        · rw [show atomEnc (.obytes bs) = 0x92 :: (leWrite 2 bs.length ++ bs) from by
            simp [atomEnc, packBytes, h1, h2, h3]]
          have := unpack_branch_bytes2 g bs rest h3 ol
          simpa [leWrite_length, List.append_assoc] using this
        · by_cases h4 : bs.length ≤ 0xffffffff
          · rw [show atomEnc (.obytes bs) = 0x93 :: (leWrite 4 bs.length ++ bs) from by
              simp [atomEnc, packBytes, h1, h2, h3, h4]]
            have := unpack_branch_bytes4 g bs rest h4 ol
            simpa [leWrite_length, List.append_assoc] using this
          · rw [show atomEnc (.obytes bs) = 0x94 :: (leWrite 8 bs.length ++ bs) from by
              simp [atomEnc, packBytes, h1, h2, h3, h4]]
            have := unpack_branch_bytes8 g bs rest hlt ol
            simpa [leWrite_length, List.append_assoc] using this

/-- The encoding of a good atom is non-empty, never starts with the `0x03`
container terminator, and starts below `0xa0` (so below every container
header and back-reference byte). -/
theorem atomEnc_shape (a : OVal) (ha : GoodAtom a) :
    ∃ h t, atomEnc a = h :: t ∧ 1 ≤ h ∧ h ≠ 3 ∧ h ≤ 0x94 := by
  match a with
  | .onull => exact ⟨4, [], rfl, by omega, by omega, by omega⟩
  | .oundefined => exact absurd ha (by simp [GoodAtom])
  | .ofloat32 _ => exact absurd ha (by simp [GoodAtom])
  | .oarr _ => exact absurd ha (by simp [GoodAtom])
  | .omap _ => exact absurd ha (by simp [GoodAtom])
  | .obool b =>
    cases b
    · exact ⟨2, [], rfl, by omega, by omega, by omega⟩
    · exact ⟨1, [], rfl, by omega, by omega, by omega⟩
  | .oint n =>
    simp only [atomEnc, packInteger]
    split_ifs with h1 h2 h3 h4
    · exact ⟨n + 8, [], rfl, by omega, by omega, by omega⟩
    · exact ⟨0x30, [n], rfl, by omega, by omega, by omega⟩
    · exact ⟨0x31, leWrite 2 n, rfl, by omega, by omega, by omega⟩
    · exact ⟨0x32, leWrite 4 n, rfl, by omega, by omega, by omega⟩
    · exact ⟨0x33, leWrite 8 n, rfl, by omega, by omega, by omega⟩
  | .ofloat bs => exact ⟨0x36, bs, rfl, by omega, by omega, by omega⟩
  | .ostr s =>
    simp only [atomEnc, packString]
    split_ifs with h1 h2 h3 h4
    · exact ⟨0x40 + s.length, s, rfl, by omega, by omega, by omega⟩
    · exact ⟨0x61, s.length :: s, rfl, by omega, by omega, by omega⟩
    · exact ⟨0x62, leWrite 2 s.length ++ s, rfl, by omega, by omega, by omega⟩
    · exact ⟨0x63, leWrite 3 s.length ++ s, rfl, by omega, by omega, by omega⟩
    · exact ⟨0x64, leWrite 4 s.length ++ s, rfl, by omega, by omega, by omega⟩
  | .obytes bs =>
    simp only [atomEnc, packBytes]
    split_ifs with h1 h2 h3 h4
    · exact ⟨0x70 + bs.length, bs, rfl, by omega, by omega, by omega⟩
    · exact ⟨0x91, bs.length :: bs, rfl, by omega, by omega, by omega⟩
    · exact ⟨0x92, leWrite 2 bs.length ++ bs, rfl, by omega, by omega, by omega⟩
    · exact ⟨0x93, leWrite 4 bs.length ++ bs, rfl, by omega, by omega, by omega⟩
    · exact ⟨0x94, leWrite 8 bs.length ++ bs, rfl, by omega, by omega, by omega⟩

/-- Encodings determine good atoms (a corollary of `unpackVal_atomEnc`). -/
theorem atomEnc_inj (a b : OVal) (ha : GoodAtom a) (hb : GoodAtom b)
    (h : atomEnc a = atomEnc b) : a = b := by
  have h1 := unpackVal_atomEnc a ha 0 [] []
  have h2 := unpackVal_atomEnc b hb 0 [] []
  rw [h] at h1
  rw [h1] at h2
  exact (Prod.mk.injEq _ _ _ _ ▸ Option.some.inj h2).1

theorem findInObjectList_some (item : List Nat) :
    ∀ (ol : List (List Nat)) (idx : Nat),
      findInObjectList ol item = some idx →
      idx < ol.length ∧ ol.getD idx [] = item := by
  intro ol
  induction ol with
  | nil => intro idx h; simp [findInObjectList] at h
  | cons e tail ih =>
    intro idx h
    by_cases he : e = item
    · have : idx = 0 := by simpa [findInObjectList, he] using h.symm
      subst this
      simpa using he
    · simp only [findInObjectList, if_neg he, Option.map_eq_some'] at h
      obtain ⟨j, hj, rfl⟩ := h
      obtain ⟨hjl, hjg⟩ := ih j hj
      exact ⟨by simpa using hjl, by simpa using hjg⟩

theorem findInObjectList_none (item : List Nat) :
    ∀ ol : List (List Nat),
      findInObjectList ol item = none ↔ item ∉ ol := by
  intro ol
  induction ol with
  | nil => simp [findInObjectList]
  | cons e tail ih =>
    by_cases he : e = item
    · simp [findInObjectList, he]
    · simp only [findInObjectList, if_neg he, Option.map_eq_none', ih,
        List.mem_cons, not_or]
      constructor
      · intro h
        exact ⟨fun he2 => he he2.symm, h⟩
      · intro h
        exact h.2

theorem packVal_good_atom (f : Nat) (a : OVal) (ha : GoodAtom a)
    (ol : List (List Nat)) :
    packVal (f + 1) a ol = dedupPacked (atomEnc a) ol := by
  match a with
  | .onull => rfl
  | .obool b => rfl
  | .oint n => rfl
  | .ofloat bs => rfl
  | .ostr s => rfl
  | .obytes bs => rfl
  | .oundefined => exact absurd ha (by simp [GoodAtom])
  | .ofloat32 _ => exact absurd ha (by simp [GoodAtom])
  | .oarr _ => exact absurd ha (by simp [GoodAtom])
  | .omap _ => exact absurd ha (by simp [GoodAtom])

/-- Packing one good atom against a well-formed pool: the encoder emits
either the atom's encoding or a back-reference to it, the pool stays
well-formed (gaining at most the new encoding), and the decoder — run on
the associated reference list — recovers exactly the atom while keeping
its list aligned with the pool. -/
theorem atom_step (as : List OVal) (a : OVal) (hpool : PoolGood as)
    (ha : GoodAtom a) (hlen : as.length ≤ 0xffff) :
    ∃ bytes as2,
      (∀ f, packVal (f + 1) a (as.map atomEnc) = (bytes, as2.map atomEnc)) ∧
      (as2 = as ∨ as2 = as ++ [a]) ∧ PoolGood as2 ∧
      (∃ h t, bytes = h :: t ∧ h ≠ 3) ∧
      (∀ g rest, unpackVal (g + 1) (bytes ++ rest) as = some (a, rest, as2)) := by
  match hfind : findInObjectList (as.map atomEnc) (atomEnc a) with
  | some idx =>
    obtain ⟨hidx0, hget⟩ := findInObjectList_some (atomEnc a) (as.map atomEnc) idx hfind
    have hidx : idx < as.length := by simpa using hidx0
    have hgd : as.getD idx .oundefined = as[idx] := List.getD_eq_getElem as .oundefined hidx
    have hbmem : as[idx] ∈ as := List.getElem_mem hidx
    have hb := hpool as[idx] hbmem
    have henc : atomEnc as[idx] = atomEnc a := by
      rw [List.getD_eq_getElem (as.map atomEnc) [] hidx0, List.getElem_map] at hget
      exact hget
    have hba : as.getD idx .oundefined = a := by
      rw [hgd]
      exact atomEnc_inj as[idx] a hb.1 ha henc
    have holget : olGet as idx = a := by
      simpa [olGet] using hba
    by_cases hw : idx < 0x21
    · refine ⟨[0xa0 + idx], as, ?_, Or.inl rfl, hpool, ⟨0xa0 + idx, [], rfl, by omega⟩, ?_⟩
      · intro f
        rw [packVal_good_atom f a ha]
        simp [dedupPacked, hfind, hw]
      · intro g rest
        rw [show ([0xa0 + idx] : List Nat) ++ rest = (0xa0 + idx) :: rest from rfl,
          unpack_branch_backref_inline g idx (by omega) rest as, holget]
    · by_cases hw2 : idx ≤ 0xff
      · refine ⟨[0xc1, idx], as, ?_, Or.inl rfl, hpool, ⟨0xc1, [idx], rfl, by omega⟩, ?_⟩
        · intro f
          rw [packVal_good_atom f a ha]
          simp [dedupPacked, hfind, hw, hw2]
        · intro g rest
          rw [show ([0xc1, idx] : List Nat) ++ rest = 0xc1 :: idx :: rest from rfl,
            unpack_branch_backref_c1 g idx rest as, holget]
      · have hw3 : idx ≤ 0xffff := by omega
        refine ⟨0xc2 :: leWrite 2 idx, as, ?_, Or.inl rfl, hpool,
          ⟨0xc2, leWrite 2 idx, rfl, by omega⟩, ?_⟩
        · intro f
          rw [packVal_good_atom f a ha]
          simp [dedupPacked, hfind, hw, hw2, hw3]
        · intro g rest
          rw [show (0xc2 :: leWrite 2 idx) ++ rest = 0xc2 :: (leWrite 2 idx ++ rest)
              from by simp,
            unpack_branch_backref_c2 g idx hw3 rest as, holget]
  | none =>
    have hnotin : atomEnc a ∉ as.map atomEnc := (findInObjectList_none _ _).mp hfind
    have hmem : a ∉ as := fun hm => hnotin (List.mem_map.mpr ⟨a, hm, rfl⟩)
    obtain ⟨h, t, hht, _, hne3, _⟩ := atomEnc_shape a ha
    by_cases hlen1 : 1 < (atomEnc a).length
    · refine ⟨atomEnc a, as ++ [a], ?_, Or.inr rfl, ?_, ⟨h, t, hht, hne3⟩, ?_⟩
      · intro f
        rw [packVal_good_atom f a ha]
        simp [dedupPacked, hfind, hlen1, List.map_append]
      · intro x hx
        rcases List.mem_append.mp hx with hx | hx
        · exact hpool x hx
        · rw [List.mem_singleton.mp hx]
          exact ⟨ha, hlen1⟩
      · intro g rest
        rw [unpackVal_atomEnc a ha g rest as, if_pos hlen1, if_neg hmem]
    · refine ⟨atomEnc a, as, ?_, Or.inl rfl, hpool, ⟨h, t, hht, hne3⟩, ?_⟩
      · intro f
        rw [packVal_good_atom f a ha]
        simp [dedupPacked, hfind, hlen1]
      · intro g rest
        rw [unpackVal_atomEnc a ha g rest as, if_neg hlen1]

theorem packSeq_cons (fuel : Nat) (x : OVal) (xs : List OVal)
    (ol : List (List Nat)) :
    packSeq (fuel + 1) (x :: xs) ol =
      ((packVal fuel x ol).1 ++ (packSeq fuel xs (packVal fuel x ol).2).1,
       (packSeq fuel xs (packVal fuel x ol).2).2) := rfl

theorem packSeq_nil (fuel : Nat) (ol : List (List Nat)) :
    packSeq (fuel + 1) [] ol = ([], ol) := rfl

theorem packPairs_cons (fuel : Nat) (k : List Nat) (v : OVal)
    (kvs : List (List Nat × OVal)) (ol : List (List Nat)) :
    packPairs (fuel + 1) ((k, v) :: kvs) ol =
      ((packVal fuel (.ostr k) ol).1 ++
        (packVal fuel v (packVal fuel (.ostr k) ol).2).1 ++
        (packPairs fuel kvs
          (packVal fuel v (packVal fuel (.ostr k) ol).2).2).1,
       (packPairs fuel kvs
          (packVal fuel v (packVal fuel (.ostr k) ol).2).2).2) := rfl

theorem packPairs_nil (fuel : Nat) (ol : List (List Nat)) :
    packPairs (fuel + 1) [] ol = ([], ol) := rfl

theorem unpackSeqCount_zero (fuel : Nat) (data : List Nat) (ol : List OVal) :
    unpackSeqCount fuel 0 data ol = some ([], data, ol) := by
  cases fuel <;> rfl

theorem unpackSeqCount_succ (fuel count : Nat) (data : List Nat)
    (ol : List OVal) :
    unpackSeqCount (fuel + 1) (count + 1) data ol =
      (unpackVal fuel data ol).bind fun r1 =>
        (unpackSeqCount fuel count r1.2.1 r1.2.2).bind fun r2 =>
          some (r1.1 :: r2.1, r2.2) := rfl

theorem unpackSeqSentinel_succ (fuel : Nat) (data : List Nat) (ol : List OVal) :
    unpackSeqSentinel (fuel + 1) data ol =
      (if data.head? = some 0x03 then some ([], data.tail, ol)
       else (unpackVal fuel data ol).bind fun r1 =>
        (unpackSeqSentinel fuel r1.2.1 r1.2.2).bind fun r2 =>
          some (r1.1 :: r2.1, r2.2)) := rfl

theorem unpackPairsCount_zero (fuel : Nat) (data : List Nat) (ol : List OVal)
    (acc : List (List Nat × OVal)) :
    unpackPairsCount fuel 0 data ol acc = some (acc, data, ol) := by
  cases fuel <;> rfl

theorem unpackPairsCount_succ (fuel count : Nat) (data : List Nat)
    (ol : List OVal) (acc : List (List Nat × OVal)) :
    unpackPairsCount (fuel + 1) (count + 1) data ol acc =
      (unpackVal fuel data ol).bind fun rk =>
        (unpackVal fuel rk.2.1 rk.2.2).bind fun rv =>
          unpackPairsCount fuel count rv.2.1 rv.2.2
            (objSet acc (keyOf rk.1) rv.1) := rfl

theorem unpackPairsSentinel_succ (fuel : Nat) (data : List Nat)
    (ol : List OVal) (acc : List (List Nat × OVal)) :
    unpackPairsSentinel (fuel + 1) data ol acc =
      (if data.head? = some 0x03 then some (acc, data.tail, ol)
       else (unpackVal fuel data ol).bind fun rk =>
        (unpackVal fuel rk.2.1 rk.2.2).bind fun rv =>
          unpackPairsSentinel fuel rv.2.1 rv.2.2
            (objSet acc (keyOf rk.1) rv.1)) := rfl

/-- Packing a flat list of good atoms and decoding it back (both the
counted and the sentinel-terminated loop), threading pool and reference
list. -/
theorem seq_roundtrip (items : List OVal) :
    ∀ (f : Nat) (as : List OVal), (∀ a ∈ items, GoodAtom a) → PoolGood as →
      as.length + items.length ≤ 0x10000 →
      ∃ bytes as2,
        packSeq (items.length + f + 1) items (as.map atomEnc) =
          (bytes, as2.map atomEnc) ∧
        PoolGood as2 ∧ as2.length ≤ as.length + items.length ∧
        items.length ≤ bytes.length ∧
        (∀ g rest,
          unpackSeqCount (items.length + g + 1) items.length (bytes ++ rest) as =
            some (items, rest, as2)) ∧
        (∀ g rest,
          unpackSeqSentinel (items.length + g + 1) (bytes ++ 0x03 :: rest) as =
            some (items, rest, as2)) := by
  induction items with
  | nil =>
    intro f as hgood hpool hbound
    refine ⟨[], as, packSeq_nil _ _, hpool, by omega, by simp, ?_, ?_⟩
    · intro g rest
      simp only [List.length_nil, List.nil_append]
      rw [unpackSeqCount_zero]
    · intro g rest
      simp only [List.length_nil, List.nil_append]
      rw [unpackSeqSentinel_succ]
      simp
  | cons a tail ih =>
    intro f as hgood hpool hbound
    have ha : GoodAtom a := hgood a (List.mem_cons_self a tail)
    obtain ⟨b1, as1, hpack1, hor1, hpool1, hhead1, hdec1⟩ :=
      atom_step as a hpool ha (by simp at hbound; omega)
    have has1 : as1.length ≤ as.length + 1 := by
      rcases hor1 with rfl | rfl <;> simp
    obtain ⟨b2, as2, hpack2, hpool2, hlen2, hblen2, hdec2, hdec2s⟩ :=
      ih f as1 (fun x hx => hgood x (List.mem_cons_of_mem a hx)) hpool1
        (by simp at hbound ⊢; omega)
    have hfu : (a :: tail).length + f + 1 = (tail.length + f + 1) + 1 := by
      simp only [List.length_cons]; omega
    refine ⟨b1 ++ b2, as2, ?_, hpool2, ?_, ?_, ?_, ?_⟩
    · rw [hfu, packSeq_cons, hpack1 (tail.length + f)]
      dsimp only
      rw [hpack2]
    · simp only [List.length_cons]; omega
    · obtain ⟨h, t, hht, _⟩ := hhead1
      simp only [List.length_cons, List.length_append, hht]
      omega
    · intro g rest
      have hfu2 : (a :: tail).length + g + 1 = (tail.length + g + 1) + 1 := by
        simp only [List.length_cons]; omega
      rw [hfu2, show (a :: tail).length = tail.length + 1 from rfl,
        unpackSeqCount_succ, List.append_assoc,
        hdec1 (tail.length + g) (b2 ++ rest)]
      simp only [Option.some_bind]
      rw [hdec2 g rest]
      rfl
    · intro g rest
      have hfu2 : (a :: tail).length + g + 1 = (tail.length + g + 1) + 1 := by
        simp only [List.length_cons]; omega
      obtain ⟨h, t, hht, hne3⟩ := hhead1
      have hhead : ((b1 ++ b2) ++ 0x03 :: rest).head? = some h := by
        rw [hht]; rfl
      rw [hfu2, unpackSeqSentinel_succ, hhead,
        if_neg (by simpa using fun he : h = 3 => hne3 he),
        List.append_assoc, hdec1 (tail.length + g) (b2 ++ 0x03 :: rest)]
      simp only [Option.some_bind]
      rw [hdec2s g rest]
      rfl

theorem objSet_not_mem (acc : List (List Nat × OVal)) (k : List Nat) (v : OVal)
    (h : k ∉ acc.map Prod.fst) : objSet acc k v = acc ++ [(k, v)] := by
  induction acc with
  | nil => rfl
  | cons p rest ih =>
    obtain ⟨p1, p2⟩ := p
    simp only [List.map_cons, List.mem_cons, not_or] at h
    simp only [objSet, if_neg (fun he : p1 = k => h.1 he.symm)]
    rw [ih h.2]
    simp

/-- Packing a flat list of string-keyed good-atom entries and decoding it
back (counted and sentinel map loops), accumulating the decoded object. -/
theorem pairs_roundtrip (kvs : List (List Nat × OVal)) :
    ∀ (f : Nat) (as : List OVal) (acc : List (List Nat × OVal)),
      (∀ kv ∈ kvs, GoodAtom (OVal.ostr kv.1) ∧ GoodAtom kv.2) → PoolGood as →
      as.length + 2 * kvs.length ≤ 0x10000 →
      (acc.map Prod.fst ++ kvs.map Prod.fst).Nodup →
      ∃ bytes as2,
        packPairs (2 * kvs.length + f + 1) kvs (as.map atomEnc) =
          (bytes, as2.map atomEnc) ∧
        PoolGood as2 ∧ as2.length ≤ as.length + 2 * kvs.length ∧
        2 * kvs.length ≤ bytes.length ∧
        (∀ g rest,
          unpackPairsCount (2 * kvs.length + g + 1) kvs.length (bytes ++ rest)
            as acc = some (acc ++ kvs, rest, as2)) ∧
        (∀ g rest,
          unpackPairsSentinel (2 * kvs.length + g + 1) (bytes ++ 0x03 :: rest)
            as acc = some (acc ++ kvs, rest, as2)) := by
  induction kvs with
  | nil =>
    intro f as acc hgood hpool hbound hnd
    refine ⟨[], as, packPairs_nil _ _, hpool, by omega, by simp, ?_, ?_⟩
    · intro g rest
      simp only [List.length_nil, List.nil_append, List.append_nil]
      rw [unpackPairsCount_zero]
    · intro g rest
      simp only [List.length_nil, List.nil_append, List.append_nil]
      rw [unpackPairsSentinel_succ]
      simp
  | cons kv tail ih =>
    obtain ⟨k, v⟩ := kv
    intro f as acc hgood hpool hbound hnd
    have hk : GoodAtom (OVal.ostr k) :=
      (hgood (k, v) (List.mem_cons_self _ _)).1
    have hv : GoodAtom v := (hgood (k, v) (List.mem_cons_self _ _)).2
    obtain ⟨b1, as1, hpack1, hor1, hpool1, hhead1, hdec1⟩ :=
      atom_step as (.ostr k) hpool hk (by simp at hbound; omega)
    have has1 : as1.length ≤ as.length + 1 := by
      rcases hor1 with rfl | rfl <;> simp
    obtain ⟨b2, as1b, hpack2, hor2, hpool2, hhead2, hdec2⟩ :=
      atom_step as1 v hpool1 hv (by simp at hbound; omega)
    have has1b : as1b.length ≤ as1.length + 1 := by
      rcases hor2 with rfl | rfl <;> simp
    have hknotacc : k ∉ acc.map Prod.fst := by
      intro hmem
      exact (List.nodup_append.mp hnd).2.2 hmem
        (by simp [List.mem_cons])
    have hndtail :
        ((acc ++ [(k, v)]).map Prod.fst ++ tail.map Prod.fst).Nodup := by
      simpa [List.append_assoc] using hnd
    obtain ⟨b3, as2, hpack3, hpool3, hlen3, hblen3, hdec3, hdec3s⟩ :=
      ih (f + 1) as1b (acc ++ [(k, v)])
        (fun x hx => hgood x (List.mem_cons_of_mem _ hx)) hpool2
        (by simp at hbound ⊢; omega) hndtail
    have hfu : 2 * ((k, v) :: tail).length + f + 1 =
        ((2 * tail.length + f + 1) + 1) + 1 := by
      simp only [List.length_cons]; omega
    refine ⟨b1 ++ b2 ++ b3, as2, ?_, hpool3, ?_, ?_, ?_, ?_⟩
    · rw [hfu, packPairs_cons, hpack1 (2 * tail.length + f + 1)]
      dsimp only
      rw [hpack2 (2 * tail.length + f + 1)]
      dsimp only
      rw [show ((2 * tail.length + f + 1) + 1 : Nat) =
          2 * tail.length + (f + 1) + 1 from by omega,
        hpack3]
    · simp only [List.length_cons]; omega
    · obtain ⟨h1, t1, hht1, _⟩ := hhead1
      obtain ⟨h2, t2, hht2, _⟩ := hhead2
      simp only [List.length_cons, List.length_append, hht1, hht2]
      omega
    · intro g rest
      have hfu2 : 2 * ((k, v) :: tail).length + g + 1 =
          ((2 * tail.length + g + 1) + 1) + 1 := by
        simp only [List.length_cons]; omega
      rw [hfu2, show ((k, v) :: tail).length = tail.length + 1 from rfl,
        unpackPairsCount_succ, List.append_assoc, List.append_assoc,
        hdec1 (2 * tail.length + g + 1) (b2 ++ (b3 ++ rest))]
      simp only [Option.some_bind]
      rw [hdec2 (2 * tail.length + g + 1) (b3 ++ rest)]
      simp only [Option.some_bind]
      have hkey : keyOf (OVal.ostr k) = k := rfl
      rw [hkey, objSet_not_mem acc k v hknotacc,
        show ((2 * tail.length + g + 1) + 1 : Nat) =
          2 * tail.length + (g + 1) + 1 from by omega,
        hdec3 (g + 1) rest]
      simp [List.append_assoc]
    · intro g rest
      have hfu2 : 2 * ((k, v) :: tail).length + g + 1 =
          ((2 * tail.length + g + 1) + 1) + 1 := by
        simp only [List.length_cons]; omega
      obtain ⟨h1, t1, hht1, hne31⟩ := hhead1
      have hhead : ((b1 ++ b2 ++ b3) ++ 0x03 :: rest).head? = some h1 := by
        rw [hht1]; rfl
      rw [hfu2, unpackPairsSentinel_succ, hhead,
        if_neg (by simpa using fun he : h1 = 3 => hne31 he),
        List.append_assoc, List.append_assoc,
        hdec1 (2 * tail.length + g + 1) (b2 ++ (b3 ++ 0x03 :: rest))]
      simp only [Option.some_bind]
      rw [hdec2 (2 * tail.length + g + 1) (b3 ++ 0x03 :: rest)]
      simp only [Option.some_bind]
      have hkey : keyOf (OVal.ostr k) = k := rfl
      rw [hkey, objSet_not_mem acc k v hknotacc,
        show ((2 * tail.length + g + 1) + 1 : Nat) =
          2 * tail.length + (g + 1) + 1 from by omega,
        hdec3s (g + 1) rest]
      simp [List.append_assoc]

theorem fuelOf_pos (v : OVal) : 1 ≤ v.fuelOf := by
  cases v <;> simp [OVal.fuelOf]

theorem fuelOfList_ge (xs : List OVal) : xs.length + 1 ≤ OVal.fuelOfList xs := by
  induction xs with
  | nil => simp [OVal.fuelOfList]
  | cons x xs ih =>
    have := fuelOf_pos x
    simp only [OVal.fuelOfList, List.length_cons]
    omega

theorem fuelOfPairs_ge (kvs : List (List Nat × OVal)) :
    2 * kvs.length + 1 ≤ OVal.fuelOfPairs kvs := by
  induction kvs with
  | nil => simp [OVal.fuelOfPairs]
  | cons kv kvs ih =>
    obtain ⟨k, v⟩ := kv
    have := fuelOf_pos v
    simp only [OVal.fuelOfPairs, List.length_cons]
    omega

theorem packVal_oarr (fuel : Nat) (xs : List OVal) (ol : List (List Nat)) :
    packVal (fuel + 1) (.oarr xs) ol =
      dedupPacked ((0xd0 + min xs.length 0xf) ::
        ((packSeq fuel xs ol).1 ++ if 0xf ≤ xs.length then [0x03] else []))
        (packSeq fuel xs ol).2 := rfl

theorem packVal_omap (fuel : Nat) (kvs : List (List Nat × OVal))
    (ol : List (List Nat)) :
    packVal (fuel + 1) (.omap kvs) ol =
      dedupPacked ((0xe0 + min kvs.length 0xf) ::
        ((packPairs fuel kvs ol).1 ++ if 0xf ≤ kvs.length then [0x03] else []))
        (packPairs fuel kvs ol).2 := rfl

theorem PoolGood_nil : PoolGood [] := by
  intro x hx
  simp at hx

/-- Round trip for a lone good atom. -/
theorem flat_atom_roundtrip (a : OVal) (ha : GoodAtom a) :
    unpack (pack a) = some (a, []) := by
  obtain ⟨f, hf⟩ : ∃ f, a.fuelOf = f + 1 :=
    ⟨a.fuelOf - 1, by have := fuelOf_pos a; omega⟩
  have hpk : pack a = atomEnc a := by
    rw [pack, hf, packVal_good_atom f a ha]
    simp [dedupPacked, findInObjectList]
  rw [hpk, unpack,
    show 2 * (atomEnc a).length + 2 = (2 * (atomEnc a).length + 1) + 1 from by
      omega]
  have hdec := unpackVal_atomEnc a ha (2 * (atomEnc a).length + 1) [] []
  rw [List.append_nil] at hdec
  rw [hdec]
  rfl

/-- C1 (amended): for flat values — good atoms, arrays of at most `0xffff`
good atoms, maps of at most `0x7fff` distinct-key entries with good-atom
keys and values — `unpack (pack v)` returns `v` structurally with no
remaining bytes.  (The decoder appends each non-trivial decoded atom to
its reference list; arrays and maps are not appended, which is why the
containers here must be flat.) -/
theorem opack_flat_roundtrip (v : OVal) (hv : GoodFlat v) :
    unpack (pack v) = some (v, []) := by
  match v with
  | .onull => exact flat_atom_roundtrip _ hv
  | .oundefined => exact absurd hv (by simp [GoodFlat, GoodAtom])
  | .ofloat32 _ => exact absurd hv (by simp [GoodFlat, GoodAtom])
  | .obool b => exact flat_atom_roundtrip _ hv
  | .oint n => exact flat_atom_roundtrip _ hv
  | .ofloat bs => exact flat_atom_roundtrip _ hv
  | .ostr s => exact flat_atom_roundtrip _ hv
  | .obytes bs => exact flat_atom_roundtrip _ hv
  | .oarr xs =>
    obtain ⟨hgood, hbound⟩ := hv
    obtain ⟨f, hf⟩ : ∃ f, OVal.fuelOfList xs = xs.length + f + 1 :=
      ⟨OVal.fuelOfList xs - xs.length - 1, by have := fuelOfList_ge xs; omega⟩
    obtain ⟨bytes, as2, hpack, hpool2, hlen2, hblen, hdecC, hdecS⟩ :=
      seq_roundtrip xs f [] hgood PoolGood_nil (by simp; omega)
    rw [show List.map atomEnc [] = ([] : List (List Nat)) from rfl] at hpack
    have hfind : ∀ body : List Nat,
        findInObjectList (as2.map atomEnc)
          ((0xd0 + min xs.length 0xf) :: body) = none := by
      intro body
      rw [findInObjectList_none]
      intro hmem
      obtain ⟨x, hx, hxe⟩ := List.mem_map.mp hmem
      obtain ⟨h, t, hht, _, _, hle⟩ := atomEnc_shape x (hpool2 x hx).1
      rw [hht] at hxe
      have : h = 0xd0 + min xs.length 0xf := (List.cons.injEq _ _ _ _ ▸ hxe).1
      omega
    have hpk : pack (.oarr xs) =
        (0xd0 + min xs.length 0xf) ::
          (bytes ++ if 0xf ≤ xs.length then [0x03] else []) := by
      rw [pack, show OVal.fuelOf (.oarr xs) = OVal.fuelOfList xs + 1 from rfl,
        packVal_oarr, hf, hpack]
      simp [dedupPacked, hfind]
    rw [hpk]
    by_cases hc : xs.length < 0xf
    · have hmin : min xs.length 0xf = xs.length := by omega
      have hsent : (if 0xf ≤ xs.length then [0x03] else ([] : List Nat)) = [] := by
        rw [if_neg (by first | omega)]
      rw [hmin, hsent, List.append_nil, unpack]
      have hL : 2 * ((0xd0 + xs.length) :: bytes).length + 2 =
          (2 * bytes.length + 3) + 1 := by
        simp only [List.length_cons]; omega
      rw [hL, unpack_branch_array_header (2 * bytes.length + 3) xs.length
        (by omega) bytes [], if_neg (by omega)]
      have hfg : 2 * bytes.length + 3 = xs.length + (2 * bytes.length + 2 - xs.length) + 1 := by
        omega
      have hdec := hdecC (2 * bytes.length + 2 - xs.length) []
      rw [List.append_nil] at hdec
      rw [hfg, hdec]
      rfl
    · have hmin : min xs.length 0xf = 0xf := by omega
      have hsent : (if 0xf ≤ xs.length then [0x03] else ([] : List Nat)) = [0x03] := by
        rw [if_pos (by omega)]
      rw [hmin, hsent, unpack]
      have hL : 2 * ((0xd0 + 0xf) :: (bytes ++ [0x03])).length + 2 =
          (2 * bytes.length + 5) + 1 := by
        simp only [List.length_cons, List.length_append, List.length_nil]; omega
      rw [hL, unpack_branch_array_header (2 * bytes.length + 5) 0xf
        (by omega) (bytes ++ [0x03]) [], if_pos rfl]
      have hfg : 2 * bytes.length + 5 = xs.length + (2 * bytes.length + 4 - xs.length) + 1 := by
        omega
      have hdec := hdecS (2 * bytes.length + 4 - xs.length) []
      rw [hfg, hdec]
      rfl
  | .omap kvs =>
    obtain ⟨hgood, hnd, hbound⟩ := hv
    obtain ⟨f, hf⟩ : ∃ f, OVal.fuelOfPairs kvs = 2 * kvs.length + f + 1 :=
      ⟨OVal.fuelOfPairs kvs - 2 * kvs.length - 1, by
        have := fuelOfPairs_ge kvs; omega⟩
    obtain ⟨bytes, as2, hpack, hpool2, hlen2, hblen, hdecC, hdecS⟩ :=
      pairs_roundtrip kvs f [] [] hgood PoolGood_nil (by simp; omega)
        (by simpa using hnd)
    rw [show List.map atomEnc [] = ([] : List (List Nat)) from rfl] at hpack
    have hfind : ∀ body : List Nat,
        findInObjectList (as2.map atomEnc)
          ((0xe0 + min kvs.length 0xf) :: body) = none := by
      intro body
      rw [findInObjectList_none]
      intro hmem
      obtain ⟨x, hx, hxe⟩ := List.mem_map.mp hmem
      obtain ⟨h, t, hht, _, _, hle⟩ := atomEnc_shape x (hpool2 x hx).1
      rw [hht] at hxe
      have : h = 0xe0 + min kvs.length 0xf := (List.cons.injEq _ _ _ _ ▸ hxe).1
      omega
    have hpk : pack (.omap kvs) =
        (0xe0 + min kvs.length 0xf) ::
          (bytes ++ if 0xf ≤ kvs.length then [0x03] else []) := by
      rw [pack, show OVal.fuelOf (.omap kvs) = OVal.fuelOfPairs kvs + 1 from rfl,
        packVal_omap, hf, hpack]
      simp [dedupPacked, hfind]
    rw [hpk]
    by_cases hc : kvs.length < 0xf
    · have hmin : min kvs.length 0xf = kvs.length := by omega
      have hsent : (if 0xf ≤ kvs.length then [0x03] else ([] : List Nat)) = [] := by
        rw [if_neg (by first | omega)]
      rw [hmin, hsent, List.append_nil, unpack]
      have hL : 2 * ((0xe0 + kvs.length) :: bytes).length + 2 =
          (2 * bytes.length + 3) + 1 := by
        simp only [List.length_cons]; omega
      rw [hL, unpack_branch_map_header (2 * bytes.length + 3) kvs.length
        (by omega) bytes [], if_neg (by omega)]
      have hfg : 2 * bytes.length + 3 =
          2 * kvs.length + (2 * bytes.length + 2 - 2 * kvs.length) + 1 := by
        omega
      have hdec := hdecC (2 * bytes.length + 2 - 2 * kvs.length) []
      rw [List.append_nil] at hdec
      rw [hfg, hdec]
      rfl
    · have hmin : min kvs.length 0xf = 0xf := by omega
      have hsent : (if 0xf ≤ kvs.length then [0x03] else ([] : List Nat)) = [0x03] := by
        rw [if_pos (by omega)]
      rw [hmin, hsent, unpack]
      have hL : 2 * ((0xe0 + 0xf) :: (bytes ++ [0x03])).length + 2 =
          (2 * bytes.length + 5) + 1 := by
        simp only [List.length_cons, List.length_append, List.length_nil]; omega
      rw [hL, unpack_branch_map_header (2 * bytes.length + 5) 0xf
        (by omega) (bytes ++ [0x03]) [], if_pos rfl]
      have hfg : 2 * bytes.length + 5 =
          2 * kvs.length + (2 * bytes.length + 4 - 2 * kvs.length) + 1 := by
        omega
      have hdec := hdecS (2 * bytes.length + 4 - 2 * kvs.length) []
      rw [hfg, hdec]
      rfl

/-- C1 (counterexample): the decoder does not append arrays and maps to
its reference list, while the encoder pools their encodings, so the two
sides disagree on back-reference indices as soon as a container precedes a
pooled value: `unpack(pack([[1],"abc","abc"]))` yields
`[[1],"abc",undefined]` (the back-reference emitted with index 1 resolves
past the end of the decoder's one-element reference list), not the
original value. -/
theorem opack_roundtrip_claim_counterexample :
    unpack (pack (.oarr [.oarr [.oint 1], .ostr [0x61, 0x62, 0x63],
        .ostr [0x61, 0x62, 0x63]])) =
      some (.oarr [.oarr [.oint 1], .ostr [0x61, 0x62, 0x63], .oundefined], []) ∧
    unpack (pack (.oarr [.oarr [.oint 1], .ostr [0x61, 0x62, 0x63],
        .ostr [0x61, 0x62, 0x63]])) ≠
      some (.oarr [.oarr [.oint 1], .ostr [0x61, 0x62, 0x63],
        .ostr [0x61, 0x62, 0x63]], []) := by
  constructor
  · decide
  · decide

theorem opack_flat_roundtrip_witness :
    GoodFlat (.oarr [.ostr [0x61, 0x62, 0x63], .oint 300,
      .ostr [0x61, 0x62, 0x63]]) ∧
    unpack (pack (.oarr [.ostr [0x61, 0x62, 0x63], .oint 300,
        .ostr [0x61, 0x62, 0x63]])) =
      some (.oarr [.ostr [0x61, 0x62, 0x63], .oint 300,
        .ostr [0x61, 0x62, 0x63]], []) :=
  ⟨by decide, opack_flat_roundtrip _ (by decide)⟩

theorem exchangeAuth_overwrite_orphan_witness :
    mapGet (exchangeAuthRegister [(6, 100)] 6 200) 6 = some 200 ∧
    (100 : Nat) ∉ (exchangeAuthRegister [(6, 100)] 6 200).map Prod.snd ∧
    CompletionAction.resolve 100 ∉
      runAuth (exchangeAuthRegister [(6, 100)] 6 200)
        [AuthEvent.timerFire 100 6] ∧
    (CompletionAction.reject 100 ∈
        runAuth (exchangeAuthRegister [(6, 100)] 6 200)
          [AuthEvent.timerFire 100 6] →
      ∃ ft, AuthEvent.timerFire 100 ft ∈ [AuthEvent.timerFire 100 6]) :=
  exchangeAuth_overwrite_orphan [(6, 100)] 6 100 200
    [AuthEvent.timerFire 100 6] (by decide) (by decide)
    (by decide) (by decide) (by intro ft h; simp at h)

end AtvJs
